import Mathlib

/-!
Verification development for the command-registration and tab-completion core
of the `ishell` fork (package `ishell`): the `Cmd` tree (registration,
deletion, resolution), help rendering, and the completion engine
(`iCompleter.Do` / `iCompleter.getWords`).

Embedding notes:
* Go pointer mutation is embedded as functional tree rebuilding; the
  `parent` back-pointer field is a non-owning navigation aid and is not
  modelled (no function in the verified core reads it).
* Go maps (`staticChildren`) are embedded as association lists with
  first-match lookup.  Go map iteration order is unspecified; everywhere the
  source makes iteration order user-visible the result is sorted afterwards
  (`Children`, `getWords`), so the association-list order is only observable
  when several static children carry the same alias, a situation that does
  not arise in any statement below.
* Go runtime panics (explicit `panic(...)` calls and out-of-range string
  indexing such as `name[0]` on an empty string) are embedded with
  `Except GoError`.
* The `Func` handler, the custom `Completer`/`CompleterWithPrefix` overrides
  (dead code: the calls in `getWords` are commented out in the source) and
  the hint-printing side effect (`shell.Println`, an external output sink)
  are not modelled; no statement below concerns them.
-/

namespace Ishell

/-- Node kind: `StaticKind` (literal child) or `ParamKind` (wildcard child). -/
inductive Kind where
  | StaticKind
  | ParamKind
  deriving DecidableEq, Repr

/-- `Arg` from the source: a named argument descriptor of a command. -/
structure Arg where
  name : String
  pair : Bool
  optional : Bool
  help : String
  deriving DecidableEq, Repr

/-- Modelled from the spec: a bound wildcard `Param{Key, Value}` pair; the
`Param`/`Context` types live in a repository file that is not part of the
given sources, and the spec (§3, ResolutionContext) describes them as a key
together with the token bound to it. -/
structure Param where
  key : String
  value : String
  deriving DecidableEq, Repr

/-- Modelled from the spec: `ResolutionContext` (§3), an ordered list of
bound `Param{Key, Value}` pairs accumulated during a resolution walk. -/
structure Context where
  params : List Param := []
  deriving DecidableEq, Repr

/-- A Go runtime failure: an explicit `panic(msg)` call, or an
out-of-range string index such as `name[0]` on an empty string. -/
inductive GoError where
  | panicMsg (msg : String)
  | indexOutOfRange
  deriving DecidableEq, Repr

/-- `Cmd` from the source.  The `parent` back-pointer, `Func` handler and the
custom completer fields are omitted (see the header comment). -/
inductive Cmd where
  | mk (name : String) (aliases : List String) (help : String)
      (longHelp : String) (args : List Arg) (kind : Kind)
      (staticChildren : List (String × Cmd)) (paramChild : Option Cmd) : Cmd

def Cmd.name : Cmd → String
  | .mk n _ _ _ _ _ _ _ => n

def Cmd.aliases : Cmd → List String
  | .mk _ a _ _ _ _ _ _ => a

def Cmd.help : Cmd → String
  | .mk _ _ h _ _ _ _ _ => h

def Cmd.longHelp : Cmd → String
  | .mk _ _ _ lh _ _ _ _ => lh

def Cmd.args : Cmd → List Arg
  | .mk _ _ _ _ ar _ _ _ => ar

def Cmd.kind : Cmd → Kind
  | .mk _ _ _ _ _ k _ _ => k

def Cmd.staticChildren : Cmd → List (String × Cmd)
  | .mk _ _ _ _ _ _ sc _ => sc

def Cmd.paramChild : Cmd → Option Cmd
  | .mk _ _ _ _ _ _ _ pc => pc

/-- Replace the name field (Go: `cmd.Name = ...`). -/
def Cmd.withName : Cmd → String → Cmd
  | .mk _ a h lh ar k sc pc, n => .mk n a h lh ar k sc pc

/-- Replace the kind field (Go: `cmd.kind = ...`). -/
def Cmd.withKind : Cmd → Kind → Cmd
  | .mk n a h lh ar _ sc pc, k => .mk n a h lh ar k sc pc

/-- Replace the static-children map. -/
def Cmd.withStaticChildren : Cmd → List (String × Cmd) → Cmd
  | .mk n a h lh ar k _ pc, sc => .mk n a h lh ar k sc pc

/-- Replace the wildcard child slot. -/
def Cmd.withParamChild : Cmd → Option Cmd → Cmd
  | .mk n a h lh ar k sc _, pc => .mk n a h lh ar k sc pc

/-- The zero value `Cmd{}` of Go. -/
def Cmd.empty : Cmd := .mk "" [] "" "" [] .StaticKind [] none

/-- Go map read `m[name]`: first binding of the key in the association list. -/
def lookupChild : List (String × Cmd) → String → Option Cmd
  | [], _ => none
  | (k, d) :: rest, s => if k = s then some d else lookupChild rest s

/-- Replace the binding of a key (Go: writing through the pointer stored in
the map entry). -/
def updateChild : List (String × Cmd) → String → Cmd → List (String × Cmd)
  | [], _, _ => []
  | (k, d) :: rest, s, d2 =>
      if k = s then (k, d2) :: rest else (k, d) :: updateChild rest s d2

/-- Go `delete(m, name)`. -/
def removeChild (l : List (String × Cmd)) (s : String) : List (String × Cmd) :=
  l.filter (fun kc => kc.1 ≠ s)

/-- The separator constant `spliter = "/"` of the source. -/
def spliter : String := "/"

/-- Go `strings.HasPrefix` at character level (the development only uses
ASCII inputs, where byte and character prefixes coincide). -/
def goHasPfx (s p : String) : Bool := p.data.isPrefixOf s.data

/-- Go `strings.HasSuffix` at character level. -/
def goHasSuffix (s p : String) : Bool := p.data.isSuffixOf s.data

/-- Go slicing `s[n:]` at character level (`n = 1` is only applied after the
one-byte marker `':'`, where bytes and characters coincide). -/
def goDrop (s : String) (n : Nat) : String := String.mk (s.data.drop n)

/-- Go `strings.Split(s, "/")` for the one-character separator `spliter`:
split at every occurrence, keeping empty fields; the empty string yields
one empty field. -/
def splitCharAux (sep : Char) : List Char → List Char → List String
  | [], cur => [String.mk cur.reverse]
  | c :: rest, cur =>
    if c = sep then String.mk cur.reverse :: splitCharAux sep rest []
    else splitCharAux sep rest (c :: cur)

def splitChar (sep : Char) (s : String) : List String := splitCharAux sep s.data []

/-- True when a path segment begins with the wildcard marker
`paramLabel = ':'` (first byte test `name[0] == paramLabel` of the source;
on an empty string the source panics instead, handled separately). -/
def isParamSeg (s : String) : Bool := s.data.head? = some ':'

/-- `addCmd(parent, child)` from the source: attach one child.  A name
beginning with `':'` goes to the wildcard slot (existing binding wins and is
returned); otherwise to the static map (existing binding wins).  `name[0]`
on an empty name is an out-of-range index. -/
def addCmd (parent child : Cmd) : Except GoError (Cmd × Cmd) :=
  match child.name.data with
  | [] => .error .indexOutOfRange
  | ch :: _ =>
    if ch = ':' then
      match parent.paramChild with
      | some pc => .ok (parent, pc)
      | none =>
          let child2 := (child.withName (goDrop child.name 1)).withKind .ParamKind
          .ok (parent.withParamChild (some child2), child2)
    else
      match lookupChild parent.staticChildren child.name with
      | some ex => .ok (parent, ex)
      | none =>
          let child2 := child.withKind .StaticKind
          .ok (parent.withStaticChildren
                (parent.staticChildren ++ [(child.name, child2)]), child2)

/-- The wildcard panic message of `AddCmd`; `full` is `cmd.Name` at panic
time, i.e. the whole trimmed path. -/
def wildcardMsg (full : String) : String :=
  "wildcards must be named with a non-empty name '" ++ full ++ "'"

/-- The segment-walking loop of `AddCmd`: intermediate segments auto-create
bare placeholder nodes (`&Cmd{Name: name}` fed to `addCmd`), the final
segment attaches the supplied command.  Go's iterative pointer mutation is
embedded as descend-and-rebuild recursion; `full` is the trimmed path used
in the panic message.  The bare-wildcard check (`name[0] == paramLabel &&
len(name) < 2`) is made for intermediate segments only, exactly as in the
source. -/
def insertPath (full : String) : Cmd → List String → Cmd → Except GoError Cmd
  | c, [], _ => .ok c
  | c, [s], cmd => (addCmd c (cmd.withName s)).map (·.1)
  | c, s :: s2 :: rest, cmd =>
    match s.data with
    | [] => .error .indexOutOfRange
    | ch :: _ =>
      if ch = ':' then
        if s.length < 2 then .error (.panicMsg (wildcardMsg full))
        else
          match c.paramChild with
          | some pc =>
            match insertPath full pc (s2 :: rest) cmd with
            | .ok pc2 => .ok (c.withParamChild (some pc2))
            | .error e => .error e
          | none =>
            match insertPath full ((Cmd.empty.withName (goDrop s 1)).withKind .ParamKind)
                (s2 :: rest) cmd with
            | .ok pc2 => .ok (c.withParamChild (some pc2))
            | .error e => .error e
      else
        match lookupChild c.staticChildren s with
        | some d =>
          match insertPath full d (s2 :: rest) cmd with
          | .ok d2 => .ok (c.withStaticChildren (updateChild c.staticChildren s d2))
          | .error e => .error e
        | none =>
          match insertPath full ((Cmd.empty.withName s).withKind .StaticKind)
              (s2 :: rest) cmd with
          | .ok d2 => .ok (c.withStaticChildren (c.staticChildren ++ [(s, d2)]))
          | .error e => .error e

/-- Go `strings.TrimPrefix(s, p)`: remove `p` once from the front when
present. -/
def goTrimPfx (s p : String) : String :=
  if goHasPfx s p then goDrop s p.length else s

/-- Go `strings.TrimSuffix(s, p)`: remove `p` once from the end when
present. -/
def goTrimSfx (s p : String) : String :=
  if goHasSuffix s p then String.mk (s.data.take (s.data.length - p.data.length))
  else s

/-- `(c *Cmd) AddCmd(cmd)` from the source: reject an empty name, trim one
leading and one trailing separator, split on the separator, then walk. -/
def AddCmd (c cmd : Cmd) : Except GoError Cmd :=
  if cmd.name = "" then .error (.panicMsg "cmd name should not be empty")
  else
    let trimmed := goTrimSfx (goTrimPfx cmd.name spliter) spliter
    insertPath trimmed c (splitChar '/' trimmed) (cmd.withName trimmed)

/-- `(c *Cmd) DeleteCmd(name)` from the source.  `name[0]` on an empty name
is an out-of-range index. -/
def DeleteCmd (c : Cmd) (name : String) : Except GoError Cmd :=
  match name.data with
  | [] => .error .indexOutOfRange
  | ch :: _ =>
    if ch = ':' then
      match c.paramChild with
      | some pc =>
          if pc.name = goDrop name 1 then .ok (c.withParamChild none) else .ok c
      | none => .ok c
    else
      .ok (c.withStaticChildren (removeChild c.staticChildren name))

/-- `findChildCmd(c, name)` from the source: exact static name first, then
the first static child carrying the name as an alias, then the wildcard
child. -/
def findAlias : List (String × Cmd) → String → Option Cmd
  | [], _ => none
  | (_, d) :: rest, s => if s ∈ d.aliases then some d else findAlias rest s

def findChildCmd (c : Cmd) (name : String) : Option Cmd :=
  match lookupChild c.staticChildren name with
  | some cmd => some cmd
  | none =>
    match findAlias c.staticChildren name with
    | some cmd => some cmd
    | none => c.paramChild

/-- The loop body of `FindCmd`: walk tokens left to right, remembering the
deepest matched node; a wildcard step appends `{Key: child.Name, Value:
token}` to the context. -/
def findCmdLoop : Cmd → Option Cmd → Context → List String →
    Option Cmd × List String × Context
  | _, found, ctx, [] => (found, [], ctx)
  | cur, found, ctx, arg :: rest =>
    match findChildCmd cur arg with
    | none => (found, arg :: rest, ctx)
    | some cmd1 =>
        let ctx2 := if cmd1.kind = Kind.ParamKind
          then { ctx with params := ctx.params ++ [⟨cmd1.name, arg⟩] }
          else ctx
        findCmdLoop cmd1 (some cmd1) ctx2 rest

/-- `(c *Cmd) FindCmd(args, ctx)` from the source: deepest matched node (or
`none`), unconsumed suffix, and the context with bound wildcard values. -/
def FindCmd (c : Cmd) (args : List String) (ctx : Context) :
    Option Cmd × List String × Context :=
  findCmdLoop c none ctx args

/-- `(c *Cmd) helpText()` from the source: `LongHelp` if non-empty, else
`Help`. -/
def helpText (c : Cmd) : String :=
  if c.longHelp ≠ "" then c.longHelp else c.help

/-- `(c *Cmd) hasSubcommand()` from the source. -/
def hasSubcommand (c : Cmd) : Bool :=
  if c.staticChildren.length > 1 ∨ c.paramChild.isSome then true
  else if (lookupChild c.staticChildren "help").isNone then
    c.staticChildren.length > 0
  else false

/-- Lexicographic comparison of character lists: the Go `<` on strings
(byte-wise lexicographic; identical to character-wise order on the inputs of
this development). -/
def charListLe : List Char → List Char → Bool
  | [], _ => true
  | _ :: _, [] => false
  | a :: as, b :: bs =>
    if a < b then true else if b < a then false else charListLe as bs

/-- Go string order `s <= t` used by the two sorters. -/
def goStrLe (s t : String) : Bool := charListLe s.data t.data

/-- Sorting of children by name (`sort.Sort(cmdSorter(cmds))`, ascending on
`Name`).  Go's `sort.Sort` is an unstable sort; insertion sort is one sorted
permutation, and the order among equal names is never observable below. -/
def sortCmds (l : List Cmd) : List Cmd :=
  List.insertionSort (fun a b => goStrLe a.name b.name = true) l

/-- `(c *Cmd) Children()` from the source: all static children plus the
wildcard child, sorted by name. -/
def Children (c : Cmd) : List Cmd :=
  sortCmds ((c.staticChildren.map (·.2)) ++
    (match c.paramChild with | some pc => [pc] | none => []))

/-- Spaces of a given width (tabwriter padding). -/
def padSpaces (n : Nat) : String := String.mk (List.replicate n ' ')

/-- `(c *Cmd) HelpText()` from the source.  `p(s...)` writes a newline and
then the arguments followed by a newline.  The child table goes through a
`tabwriter` with minwidth 0, tabwidth 4, padding 2 and pad character `' '`
on lines `"\t%s\t\t\t%s\n"`, which renders each line as: 2 spaces (empty
leading cell), the name padded to the longest name plus 2, 4 spaces (two
empty cells), then the child's `Help` verbatim as the trailing cell. -/
def HelpText (c : Cmd) : String :=
  let paragraph :=
    if c.longHelp ≠ "" then "\n" ++ c.longHelp ++ "\n"
    else if c.help ≠ "" then "\n" ++ c.help ++ "\n"
    else if c.name ≠ "" then "\n" ++ c.name ++ " has no help\n"
    else ""
  let sub :=
    if hasSubcommand c then
      let cs := Children c
      let w := cs.foldl (fun m d => max m d.name.length) 0
      "\nCommands:\n" ++
        String.join (cs.map (fun d =>
          "  " ++ d.name ++ padSpaces (w + 2 - d.name.length) ++ "    " ++
            d.help ++ "\n")) ++ "\n"
    else ""
  paragraph ++ sub

/-- `Suggestion` from the source. -/
structure Suggestion where
  word : String
  param : Bool
  optional : Bool
  help : String
  deriving DecidableEq, Repr

/-- Sorting of suggestions by word (`sort.Sort(suggestionSorter(s))`,
ascending on `Word`; same unstable-sort remark as for `sortCmds`). -/
def sortSuggs (l : List Suggestion) : List Suggestion :=
  List.insertionSort (fun a b => goStrLe a.word b.word = true) l

/-- The static-children pass of `getWords`: every static child whose map key
has the typed prefix, as a non-parameter suggestion with the child's
resolved help. -/
def childSuggestions (cmd : Cmd) (pfx : String) : List Suggestion :=
  (cmd.staticChildren.filter (fun kc => goHasPfx kc.1 pfx)).map
    (fun kc => ⟨kc.1, false, false, helpText kc.2⟩)

/-- The wildcard-child pass of `getWords`: the param child, when present, as
a parameter suggestion (never prefix-filtered). -/
def paramSuggestion (cmd : Cmd) : List Suggestion :=
  match cmd.paramChild with
  | some pc => [⟨pc.name, true, false, helpText pc⟩]
  | none => []

/-- The pair-argument early exit of `getWords`: when there are leftover
args and the most recent one exactly names a `Pair`-type argument spec, the
value slot of that spec (a parameter suggestion). -/
def pairSlot (specs : List Arg) (args : List String) : Option Suggestion :=
  match args.getLast? with
  | none => none
  | some last =>
      (specs.find? (fun a => a.name == last && a.pair)).map
        (fun a => ⟨a.name, true, a.optional, a.help⟩)

/-- The final pass of `getWords`: every argument spec whose name is not
already present among the leftover args. -/
def argSuggestions (specs : List Arg) (args : List String) : List Suggestion :=
  (specs.filter (fun a => ¬ args.contains a.name)).map
    (fun a => ⟨a.name, false, a.optional, a.help⟩)

/-- Candidate generation of `getWords` against an already-resolved node:
static children, then the wildcard child, then either the single pair value
slot (early return) or the remaining argument specs; the deferred
`sort.Sort` runs on every exit path. -/
def rawCandidates (cmd : Cmd) (pfx : String) (args : List String) :
    List Suggestion :=
  childSuggestions cmd pfx ++ paramSuggestion cmd ++
    (match pairSlot cmd.args args with
     | some slot => [slot]
     | none => argSuggestions cmd.args args)

def candidatesFor (cmd : Cmd) (pfx : String) (args : List String) :
    List Suggestion :=
  sortSuggs (rawCandidates cmd pfx args)

/-- `iCompleter` from the source; the `shell` output sink is not modelled
and the disable predicate is embedded by its value (`disabled != nil &&
disabled()`). -/
structure ICompleter where
  cmd : Cmd
  disabled : Bool

/-- `iCompleter.getWords(prefix, w)` from the source: resolve `w` from the
bound node; on no match fall back to the bound node itself (the assignment
`cmd, _ = ic.cmd, w` discards `w`, leaving the leftover slice produced by
`FindCmd`); then generate candidates. -/
def getWords (ic : ICompleter) (pfx : String) (w : List String) :
    List Suggestion :=
  let r := FindCmd ic.cmd w ⟨[]⟩
  let cmd := r.1.getD ic.cmd
  candidatesFor cmd pfx r.2.1

/-- Go `unicode.IsSpace` restricted to the ASCII characters that occur in
this development. -/
def goIsSpace (c : Char) : Bool :=
  c == ' ' || c == '\t' || c == '\n' || c == '\x0b' || c == '\x0c' || c == '\r'

/-- Modelled from the spec: the external tokenizer contract (§6) — the
source calls `shlex.Split` (shell-word splitting with quote/escape support,
a vendored third-party package outside these sources) and falls back to
`strings.Fields` on error.  On quote-free and escape-free input both agree
with plain whitespace splitting, which is what is modelled; every line used
in a statement below is quote-free. -/
def fieldsAux : List Char → List Char → List String
  | [], [] => []
  | [], cur => [String.mk cur.reverse]
  | c :: rest, cur =>
    if goIsSpace c then
      match cur with
      | [] => fieldsAux rest []
      | _ => String.mk cur.reverse :: fieldsAux rest []
    else fieldsAux rest (c :: cur)

def tokenize (s : String) : List String := fieldsAux s.data []

/-- The prefix split of `iCompleter.Do`: when at least one token exists, the
cursor is past the start, and the rune just before the cursor is not `' '`
(the source compares against the space character only), the final token is
the in-progress prefix and the remaining tokens feed resolution; otherwise
the prefix is empty and every token feeds resolution. -/
def splitPfx (line : List Char) (pos : Nat) (words : List String) :
    String × List String :=
  if words.length > 0 ∧ pos > 0 ∧ line.get? (pos - 1) ≠ some ' ' then
    (words.getLastD "", words.dropLast)
  else ("", words)

/-- `iCompleter.Do(line, pos)` from the source, without the hint-printing
side effect (the tooltip lines go to the external output sink and are not
part of the returned value).  Returns the suggestion strings, the reported
candidate count, and the replace length `len(prefix)`. -/
def Do (ic : ICompleter) (line : List Char) (pos : Nat) :
    List String × Nat × Nat :=
  if ic.disabled then ([], 0, line.length)
  else
    let words := tokenize (String.mk line)
    let pr := splitPfx line pos words
    let pfx := pr.1
    let cWords := getWords ic pfx pr.2
    let hasParam := cWords.any (·.param)
    let suggestions :=
      (cWords.filter (fun w => !w.param && goHasPfx w.word pfx)).map
        (fun w => goDrop w.word pfx.length)
    let sp :=
      if suggestions.length = 1 ∧ pfx ≠ "" ∧ suggestions = [""] then
        ([" "], false)
      else (suggestions, hasParam)
    let length := sp.1.length + (if sp.2 then 1 else 0)
    (sp.1, length, pfx.length)

/-! ### Auxiliary notions for the registration/resolution theorems -/

/-- A well-formed path segment: non-empty, and when it begins with the
wildcard marker it carries a non-empty name after the marker. -/
def validSeg (s : String) : Bool :=
  s ≠ "" && (!(isParamSeg s) || 2 ≤ s.length)

/-- A well-formed registration path: a non-empty list of well-formed
segments. -/
def validSegs (P : List String) : Bool :=
  !P.isEmpty && P.all validSeg

/-- The tree contains a chain of edges along the given segments — a static
edge keyed by the segment for an ordinary segment, the wildcard edge for a
marker segment — ending at a node whose one-line help is `h`. -/
def chain : Cmd → List String → String → Prop
  | c, [], h => c.help = h
  | c, s :: rest, h =>
    if isParamSeg s then ∃ pc, c.paramChild = some pc ∧ chain pc rest h
    else ∃ d, lookupChild c.staticChildren s = some d ∧ chain d rest h

/-- The slot a path's final segment would occupy is still free: following
the path's intermediate edges (wherever they already exist), the final
static key (resp. the wildcard slot) is unoccupied.  Registration along
such a path actually attaches the supplied node instead of silently
returning an existing one. -/
def freeAt : Cmd → List String → Bool
  | _, [] => true
  | c, [s] =>
      if isParamSeg s then c.paramChild.isNone
      else (lookupChild c.staticChildren s).isNone
  | c, s :: s2 :: rest =>
    if isParamSeg s then
      match c.paramChild with
      | some pc => freeAt pc (s2 :: rest)
      | none => true
    else
      match lookupChild c.staticChildren s with
      | some d => freeAt d (s2 :: rest)
      | none => true

/-- Trees whose nodes all carry empty alias lists and whose static keys
never begin with the wildcard marker.  Trees built solely by `AddCmd` from
alias-free commands are of this shape; it rules out alias capture of a
marker token during resolution. -/
inductive Plain : Cmd → Prop
  | intro (c : Cmd)
      (hal : c.aliases = [])
      (hkey : ∀ k d, (k, d) ∈ c.staticChildren → isParamSeg k = false)
      (hst : ∀ k d, (k, d) ∈ c.staticChildren → Plain d)
      (hpc : ∀ pc, c.paramChild = some pc → Plain pc) : Plain c

/-- The empty root a registration scenario starts from (Go `Cmd{}`). -/
def emptyRoot : Cmd := Cmd.empty

/-- A plain marked node registered at the first path of a two-path
scenario. -/
def node1 : Cmd := .mk "n1" [] "H1" "" [] .StaticKind [] none

/-- A plain marked node registered at the second path of a two-path
scenario. -/
def node2 : Cmd := .mk "n2" [] "H2" "" [] .StaticKind [] none

/-! ### Spec-side definitions (for refinement statements)

These follow the spec's words, to be compared with the definitions
translated from the source. -/

/-- Spec-side (§4.4): `resolvedHelp(node)` — LongHelp if non-empty; else
Help if non-empty; else, for a node with an identity, the synthesized
one-liner; else empty. -/
def resolvedHelp (c : Cmd) : String :=
  if c.longHelp ≠ "" then c.longHelp
  else if c.help ≠ "" then c.help
  else if c.name ≠ "" then c.name ++ " has no help"
  else ""

/-- The width of the widest child name (the tabwriter's name-column
content width). -/
def maxNameLen (cs : List Cmd) : Nat :=
  cs.foldl (fun m d => max m d.name.length) 0

/-! ### Concrete trees used by witnesses and counterexamples -/

/-- The tree after registering `node1` at path `["a"]` in the empty root. -/
def c1w1 : Cmd :=
  Cmd.empty.withStaticChildren [("a", (node1.withName "a").withKind .StaticKind)]

/-- The tree after additionally registering `node2` at path `["b"]`. -/
def c1w2 : Cmd :=
  Cmd.empty.withStaticChildren
    [("a", (node1.withName "a").withKind .StaticKind),
     ("b", (node2.withName "b").withKind .StaticKind)]

/-- The leaf created by registering the path `"a/b"` with help `"H1"`. -/
def c1CexLeaf : Cmd := .mk "b" [] "H1" "" [] .StaticKind [] none

/-- The auto-created bare placeholder at `"a"` (empty help). -/
def c1CexMid : Cmd := .mk "a" [] "" "" [] .StaticKind [("b", c1CexLeaf)] none

/-- The tree after registering `"a/b"` in an empty root. -/
def c1CexTree : Cmd := .mk "" [] "" "" [] .StaticKind [("a", c1CexMid)] none

/-- The tree produced by registering the bare-marker path `":"`: a wildcard
child whose name is empty. -/
def c2CexTree : Cmd :=
  .mk "" [] "" "" [] .StaticKind [] (some (.mk "" [] "" "" [] .ParamKind [] none))

/-- The wildcard child named `"a"` created by registering `":a"`. -/
def c3aNode : Cmd := .mk "a" [] "" "" [] .ParamKind [] none

/-- A parent already holding the wildcard child `c3aNode`. -/
def c3Parent : Cmd := Cmd.empty.withParamChild (some c3aNode)

/-- A command with a `Pair` argument spec `--out` and one further spec. -/
def c5Job : Cmd :=
  .mk "job" [] "" "" [⟨"--out", true, false, "o"⟩, ⟨"--v", false, false, "v"⟩]
    .StaticKind [] none

/-- A root whose only child is `c5Job`. -/
def c5Root : Cmd := Cmd.empty.withStaticChildren [("job", c5Job)]

/-- A static child named `start` carrying the alias `st`. -/
def c8Start : Cmd := .mk "start" ["st"] "" "" [] .StaticKind [] none

/-- A root whose only child is `c8Start`. -/
def c8Root : Cmd := Cmd.empty.withStaticChildren [("start", c8Start)]

/-- A named, help-less node with one child whose `LongHelp` is `"L"` and
whose `Help` is empty. -/
def c6Node : Cmd :=
  .mk "p" [] "" "" [] .StaticKind
    [("x", .mk "x" [] "" "L" [] .StaticKind [] none)] none

/-! ## Small facts about the embedded primitives -/

@[simp] theorem Cmd.name_withName (c : Cmd) (n : String) : (c.withName n).name = n := by
  cases c; rfl

@[simp] theorem Cmd.aliases_withName (c : Cmd) (n : String) : (c.withName n).aliases = c.aliases := by
  cases c; rfl

@[simp] theorem Cmd.help_withName (c : Cmd) (n : String) : (c.withName n).help = c.help := by
  cases c; rfl

@[simp] theorem Cmd.longHelp_withName (c : Cmd) (n : String) : (c.withName n).longHelp = c.longHelp := by
  cases c; rfl

@[simp] theorem Cmd.args_withName (c : Cmd) (n : String) : (c.withName n).args = c.args := by
  cases c; rfl

@[simp] theorem Cmd.kind_withName (c : Cmd) (n : String) : (c.withName n).kind = c.kind := by
  cases c; rfl

@[simp] theorem Cmd.staticChildren_withName (c : Cmd) (n : String) :
    (c.withName n).staticChildren = c.staticChildren := by
  cases c; rfl

@[simp] theorem Cmd.paramChild_withName (c : Cmd) (n : String) :
    (c.withName n).paramChild = c.paramChild := by
  cases c; rfl

@[simp] theorem Cmd.name_withKind (c : Cmd) (k : Kind) : (c.withKind k).name = c.name := by
  cases c; rfl

@[simp] theorem Cmd.aliases_withKind (c : Cmd) (k : Kind) : (c.withKind k).aliases = c.aliases := by
  cases c; rfl

@[simp] theorem Cmd.help_withKind (c : Cmd) (k : Kind) : (c.withKind k).help = c.help := by
  cases c; rfl

@[simp] theorem Cmd.longHelp_withKind (c : Cmd) (k : Kind) : (c.withKind k).longHelp = c.longHelp := by
  cases c; rfl

@[simp] theorem Cmd.args_withKind (c : Cmd) (k : Kind) : (c.withKind k).args = c.args := by
  cases c; rfl

@[simp] theorem Cmd.kind_withKind (c : Cmd) (k : Kind) : (c.withKind k).kind = k := by
  cases c; rfl

@[simp] theorem Cmd.staticChildren_withKind (c : Cmd) (k : Kind) :
    (c.withKind k).staticChildren = c.staticChildren := by
  cases c; rfl

@[simp] theorem Cmd.paramChild_withKind (c : Cmd) (k : Kind) :
    (c.withKind k).paramChild = c.paramChild := by
  cases c; rfl

@[simp] theorem Cmd.name_withStaticChildren (c : Cmd) (l : List (String × Cmd)) :
    (c.withStaticChildren l).name = c.name := by
  cases c; rfl

@[simp] theorem Cmd.aliases_withStaticChildren (c : Cmd) (l : List (String × Cmd)) :
    (c.withStaticChildren l).aliases = c.aliases := by
  cases c; rfl

@[simp] theorem Cmd.help_withStaticChildren (c : Cmd) (l : List (String × Cmd)) :
    (c.withStaticChildren l).help = c.help := by
  cases c; rfl

@[simp] theorem Cmd.longHelp_withStaticChildren (c : Cmd) (l : List (String × Cmd)) :
    (c.withStaticChildren l).longHelp = c.longHelp := by
  cases c; rfl

@[simp] theorem Cmd.args_withStaticChildren (c : Cmd) (l : List (String × Cmd)) :
    (c.withStaticChildren l).args = c.args := by
  cases c; rfl

@[simp] theorem Cmd.kind_withStaticChildren (c : Cmd) (l : List (String × Cmd)) :
    (c.withStaticChildren l).kind = c.kind := by
  cases c; rfl

@[simp] theorem Cmd.staticChildren_withStaticChildren (c : Cmd) (l : List (String × Cmd)) :
    (c.withStaticChildren l).staticChildren = l := by
  cases c; rfl

@[simp] theorem Cmd.paramChild_withStaticChildren (c : Cmd) (l : List (String × Cmd)) :
    (c.withStaticChildren l).paramChild = c.paramChild := by
  cases c; rfl

@[simp] theorem Cmd.name_withParamChild (c : Cmd) (pc : Option Cmd) :
    (c.withParamChild pc).name = c.name := by
  cases c; rfl

@[simp] theorem Cmd.aliases_withParamChild (c : Cmd) (pc : Option Cmd) :
    (c.withParamChild pc).aliases = c.aliases := by
  cases c; rfl

@[simp] theorem Cmd.help_withParamChild (c : Cmd) (pc : Option Cmd) :
    (c.withParamChild pc).help = c.help := by
  cases c; rfl

@[simp] theorem Cmd.longHelp_withParamChild (c : Cmd) (pc : Option Cmd) :
    (c.withParamChild pc).longHelp = c.longHelp := by
  cases c; rfl

@[simp] theorem Cmd.args_withParamChild (c : Cmd) (pc : Option Cmd) :
    (c.withParamChild pc).args = c.args := by
  cases c; rfl

@[simp] theorem Cmd.kind_withParamChild (c : Cmd) (pc : Option Cmd) :
    (c.withParamChild pc).kind = c.kind := by
  cases c; rfl

@[simp] theorem Cmd.staticChildren_withParamChild (c : Cmd) (pc : Option Cmd) :
    (c.withParamChild pc).staticChildren = c.staticChildren := by
  cases c; rfl

@[simp] theorem Cmd.paramChild_withParamChild (c : Cmd) (pc : Option Cmd) :
    (c.withParamChild pc).paramChild = pc := by
  cases c; rfl

theorem lookupChild_mem {l : List (String × Cmd)} {k : String} {d : Cmd}
    (h : lookupChild l k = some d) : (k, d) ∈ l := by
  induction l with
  | nil => simp [lookupChild] at h
  | cons kd rest ih =>
    obtain ⟨k1, d1⟩ := kd
    by_cases hk : k1 = k
    · subst hk
      simp [lookupChild] at h
      subst h
      exact List.mem_cons_self _ _
    · simp [lookupChild, hk] at h
      exact List.mem_cons_of_mem _ (ih h)

theorem lookupChild_append_some {l l2 : List (String × Cmd)} {k : String} {d : Cmd}
    (h : lookupChild l k = some d) : lookupChild (l ++ l2) k = some d := by
  induction l with
  | nil => simp [lookupChild] at h
  | cons kd rest ih =>
    obtain ⟨k1, d1⟩ := kd
    by_cases hk : k1 = k
    · simp_all [lookupChild]
    · simp_all [lookupChild, hk]

theorem lookupChild_append_none {l l2 : List (String × Cmd)} {k : String}
    (h : lookupChild l k = none) : lookupChild (l ++ l2) k = lookupChild l2 k := by
  induction l with
  | nil => simp [lookupChild]
  | cons kd rest ih =>
    obtain ⟨k1, d1⟩ := kd
    by_cases hk : k1 = k
    · simp [lookupChild, hk] at h
    · simp_all [lookupChild, hk]

theorem lookupChild_update_self {l : List (String × Cmd)} {k : String} {d d2 : Cmd}
    (h : lookupChild l k = some d) :
    lookupChild (updateChild l k d2) k = some d2 := by
  induction l with
  | nil => simp [lookupChild] at h
  | cons kd rest ih =>
    obtain ⟨k1, d1⟩ := kd
    by_cases hk : k1 = k
    · simp [lookupChild, updateChild, hk]
    · simp_all [lookupChild, updateChild, hk]

theorem lookupChild_update_ne {l : List (String × Cmd)} {k k2 : String} {d2 : Cmd}
    (h : k2 ≠ k) : lookupChild (updateChild l k d2) k2 = lookupChild l k2 := by
  induction l with
  | nil => simp [updateChild]
  | cons kd rest ih =>
    obtain ⟨k1, d1⟩ := kd
    by_cases hk : k1 = k
    · subst hk
      simp [updateChild, lookupChild, Ne.symm h]
    · simp_all [lookupChild, updateChild, hk]

theorem updateChild_mem {l : List (String × Cmd)} {k : String} {d2 : Cmd}
    {k2 : String} {e : Cmd} (h : (k2, e) ∈ updateChild l k d2) :
    (k2 = k ∧ e = d2) ∨ (k2, e) ∈ l := by
  induction l with
  | nil => simp [updateChild] at h
  | cons kd rest ih =>
    obtain ⟨k1, d1⟩ := kd
    by_cases hk : k1 = k
    · subst hk
      simp [updateChild] at h
      rcases h with ⟨h1, h2⟩ | h
      · exact Or.inl ⟨h1, h2⟩
      · exact Or.inr (List.mem_cons_of_mem _ h)
    · simp [updateChild, hk] at h
      rcases h with ⟨h1, h2⟩ | h
      · subst h1; subst h2; exact Or.inr (List.mem_cons_self _ _)
      · rcases ih h with h | h
        · exact Or.inl h
        · exact Or.inr (List.mem_cons_of_mem _ h)

theorem Plain.aliases_eq {c : Cmd} (h : Plain c) : c.aliases = [] := by
  cases h with
  | intro _ hal _ _ _ => exact hal

theorem Plain.key_not_param {c : Cmd} (h : Plain c) {k : String} {d : Cmd}
    (hm : (k, d) ∈ c.staticChildren) : isParamSeg k = false := by
  cases h with
  | intro _ _ hkey _ _ => exact hkey _ _ hm

theorem Plain.static_plain {c : Cmd} (h : Plain c) {k : String} {d : Cmd}
    (hm : (k, d) ∈ c.staticChildren) : Plain d := by
  cases h with
  | intro _ _ _ hst _ => exact hst _ _ hm

theorem Plain.param_plain {c : Cmd} (h : Plain c) {pc : Cmd}
    (hm : c.paramChild = some pc) : Plain pc := by
  cases h with
  | intro _ _ _ _ hpc => exact hpc _ hm

theorem plain_lookup_param_none {c : Cmd} (h : Plain c) {s : String}
    (hs : isParamSeg s = true) : lookupChild c.staticChildren s = none := by
  cases hl : lookupChild c.staticChildren s with
  | none => rfl
  | some d =>
    have := h.key_not_param (lookupChild_mem hl)
    rw [hs] at this
    cases this

theorem findAlias_none {l : List (String × Cmd)}
    (h : ∀ k d, (k, d) ∈ l → d.aliases = []) {s : String} :
    findAlias l s = none := by
  induction l with
  | nil => rfl
  | cons kd rest ih =>
    obtain ⟨k1, d1⟩ := kd
    have h1 : d1.aliases = [] := h k1 d1 (List.mem_cons_self _ _)
    simp only [findAlias, h1]
    simp only [List.not_mem_nil, if_false]
    exact ih (fun k d hm => h k d (List.mem_cons_of_mem _ hm))

theorem findChildCmd_param {c : Cmd} (hp : Plain c) {s : String}
    (hs : isParamSeg s = true) : findChildCmd c s = c.paramChild := by
  have hl := plain_lookup_param_none hp hs
  have ha : findAlias c.staticChildren s = none :=
    findAlias_none (fun k d hm => (hp.static_plain hm).aliases_eq)
  simp [findChildCmd, hl, ha]

theorem findChildCmd_static {c : Cmd} {s : String} {d : Cmd}
    (h : lookupChild c.staticChildren s = some d) : findChildCmd c s = some d := by
  simp [findChildCmd, h]

theorem String.data_ne_nil {s : String} (h : s ≠ "") : s.data ≠ [] := by
  intro hd
  exact h (String.ext (by simpa using hd))

theorem isParamSeg_of_head {s : String} {ch : Char} {tl : List Char}
    (hd : s.data = ch :: tl) : isParamSeg s = (ch = ':' : Bool) := by
  simp [isParamSeg, hd]

theorem addCmd_param_new {parent child : Cmd} {ch : Char} {tl : List Char}
    (hd : child.name.data = ch :: tl) (hch : ch = ':')
    (hpc : parent.paramChild = none) :
    addCmd parent child =
      .ok (parent.withParamChild
            (some ((child.withName (goDrop child.name 1)).withKind .ParamKind)),
          (child.withName (goDrop child.name 1)).withKind .ParamKind) := by
  unfold addCmd
  rw [hd]
  subst hch
  simp [hpc]

theorem addCmd_param_exists {parent child pc : Cmd} {ch : Char} {tl : List Char}
    (hd : child.name.data = ch :: tl) (hch : ch = ':')
    (hpc : parent.paramChild = some pc) :
    addCmd parent child = .ok (parent, pc) := by
  unfold addCmd
  rw [hd]
  subst hch
  simp [hpc]

theorem addCmd_static_new {parent child : Cmd} {ch : Char} {tl : List Char}
    (hd : child.name.data = ch :: tl) (hch : ch ≠ ':')
    (hl : lookupChild parent.staticChildren child.name = none) :
    addCmd parent child =
      .ok (parent.withStaticChildren
            (parent.staticChildren ++ [(child.name, child.withKind .StaticKind)]),
          child.withKind .StaticKind) := by
  unfold addCmd
  rw [hd]
  simp [hch, hl]

theorem addCmd_static_exists {parent child ex : Cmd} {ch : Char} {tl : List Char}
    (hd : child.name.data = ch :: tl) (hch : ch ≠ ':')
    (hl : lookupChild parent.staticChildren child.name = some ex) :
    addCmd parent child = .ok (parent, ex) := by
  unfold addCmd
  rw [hd]
  simp [hch, hl]

theorem insertPath_cons_param_some {full : String} {c nd pc : Cmd} {s s2 : String}
    {rest : List String} {ch : Char} {tl : List Char}
    (hd : s.data = ch :: tl) (hch : ch = ':') (hlen : ¬ s.length < 2)
    (hpc : c.paramChild = some pc) :
    insertPath full c (s :: s2 :: rest) nd =
      match insertPath full pc (s2 :: rest) nd with
      | .ok pc2 => .ok (c.withParamChild (some pc2))
      | .error e => .error e := by
  simp only [insertPath]
  rw [hd]
  subst hch
  simp [hlen, hpc]

theorem insertPath_cons_param_none {full : String} {c nd : Cmd} {s s2 : String}
    {rest : List String} {ch : Char} {tl : List Char}
    (hd : s.data = ch :: tl) (hch : ch = ':') (hlen : ¬ s.length < 2)
    (hpc : c.paramChild = none) :
    insertPath full c (s :: s2 :: rest) nd =
      match insertPath full ((Cmd.empty.withName (goDrop s 1)).withKind .ParamKind)
          (s2 :: rest) nd with
      | .ok pc2 => .ok (c.withParamChild (some pc2))
      | .error e => .error e := by
  simp only [insertPath]
  rw [hd]
  subst hch
  simp [hlen, hpc]

theorem insertPath_cons_static_some {full : String} {c nd d : Cmd} {s s2 : String}
    {rest : List String} {ch : Char} {tl : List Char}
    (hd : s.data = ch :: tl) (hch : ch ≠ ':')
    (hl : lookupChild c.staticChildren s = some d) :
    insertPath full c (s :: s2 :: rest) nd =
      match insertPath full d (s2 :: rest) nd with
      | .ok d2 => .ok (c.withStaticChildren (updateChild c.staticChildren s d2))
      | .error e => .error e := by
  simp only [insertPath]
  rw [hd]
  simp [hch, hl]

theorem insertPath_cons_static_none {full : String} {c nd : Cmd} {s s2 : String}
    {rest : List String} {ch : Char} {tl : List Char}
    (hd : s.data = ch :: tl) (hch : ch ≠ ':')
    (hl : lookupChild c.staticChildren s = none) :
    insertPath full c (s :: s2 :: rest) nd =
      match insertPath full ((Cmd.empty.withName s).withKind .StaticKind)
          (s2 :: rest) nd with
      | .ok d2 => .ok (c.withStaticChildren (c.staticChildren ++ [(s, d2)]))
      | .error e => .error e := by
  simp only [insertPath]
  rw [hd]
  simp [hch, hl]

theorem freeAt_bare {b : Cmd} (h1 : b.staticChildren = []) (h2 : b.paramChild = none)
    (P : List String) : freeAt b P = true := by
  match P with
  | [] => rfl
  | [s] => simp [freeAt, h1, h2, lookupChild]
  | s :: s2 :: rest => simp [freeAt, h1, h2, lookupChild]

theorem validSeg_parts {s : String} (h : validSeg s = true) :
    s ≠ "" ∧ (isParamSeg s = true → 2 ≤ s.length) := by
  simp [validSeg] at h
  obtain ⟨h1, h2⟩ := h
  refine ⟨h1, fun hp => ?_⟩
  rcases h2 with h2 | h2
  · rw [hp] at h2; cases h2
  · exact h2

theorem exists_head_of_ne_empty {s : String} (h : s ≠ "") :
    ∃ ch tl, s.data = ch :: tl := by
  cases hd : s.data with
  | nil => exact absurd hd (String.data_ne_nil h)
  | cons ch tl => exact ⟨ch, tl, rfl⟩

/-- A successful registration along a path whose final slot was free leaves
in the tree a chain of edges along that path, ending at a node carrying the
registered command's help. -/
theorem insertPath_chain (P : List String) :
    ∀ {full : String} {c nd t : Cmd},
    P.all validSeg = true → freeAt c P = true →
    insertPath full c P nd = .ok t → P ≠ [] → chain t P nd.help := by
  induction P with
  | nil => intro _ _ _ _ _ _ _ hne; exact absurd rfl hne
  | cons s rest ih =>
    intro full c nd t hv hf he _
    have hv' : validSeg s = true ∧ rest.all validSeg = true := by
      simpa [List.all_cons, Bool.and_eq_true] using hv
    obtain ⟨hs0, hslen⟩ := validSeg_parts hv'.1
    obtain ⟨ch, tl, hdata⟩ := exists_head_of_ne_empty hs0
    have hd2 : (nd.withName s).name.data = ch :: tl := by simpa using hdata
    by_cases hch : ch = ':'
    · -- wildcard segment
      have hps : isParamSeg s = true := by
        rw [isParamSeg_of_head hdata, hch]; simp
      have hlen : ¬ s.length < 2 := Nat.not_lt.mpr (hslen hps)
      cases rest with
      | nil =>
        have hfc : c.paramChild = none := by
          simpa [freeAt, hps, Option.isNone_iff_eq_none] using hf
        rw [show insertPath full c [s] nd = (addCmd c (nd.withName s)).map (·.1)
              from rfl,
            addCmd_param_new hd2 hch hfc] at he
        simp only [Except.map, Except.ok.injEq] at he
        subst he
        simp only [chain, hps, if_true, Cmd.paramChild_withParamChild]
        exact ⟨_, rfl, by simp [chain]⟩
      | cons s2 rest2 =>
        cases hcp : c.paramChild with
        | some pc =>
          rw [insertPath_cons_param_some hdata hch hlen hcp] at he
          cases hrec : insertPath full pc (s2 :: rest2) nd with
          | error e => rw [hrec] at he; cases he
          | ok pc2 =>
            rw [hrec] at he
            simp only [Except.ok.injEq] at he
            subst he
            have hf' : freeAt pc (s2 :: rest2) = true := by
              simpa [freeAt, hps, hcp] using hf
            have := ih hv'.2 hf' hrec (by simp)
            simp only [chain, hps, if_true, Cmd.paramChild_withParamChild]
            exact ⟨pc2, rfl, this⟩
        | none =>
          rw [insertPath_cons_param_none hdata hch hlen hcp] at he
          cases hrec : insertPath full ((Cmd.empty.withName (goDrop s 1)).withKind .ParamKind)
              (s2 :: rest2) nd with
          | error e => rw [hrec] at he; cases he
          | ok pc2 =>
            rw [hrec] at he
            simp only [Except.ok.injEq] at he
            subst he
            have hf' : freeAt ((Cmd.empty.withName (goDrop s 1)).withKind .ParamKind)
                (s2 :: rest2) = true :=
              @freeAt_bare ((Cmd.empty.withName (goDrop s 1)).withKind .ParamKind)
                rfl rfl _
            have := ih hv'.2 hf' hrec (by simp)
            simp only [chain, hps, if_true, Cmd.paramChild_withParamChild]
            exact ⟨pc2, rfl, this⟩
    · -- static segment
      have hps : isParamSeg s = false := by
        rw [isParamSeg_of_head hdata]; simp [hch]
      cases rest with
      | nil =>
        have hfc : lookupChild c.staticChildren s = none := by
          simpa [freeAt, hps, Option.isNone_iff_eq_none] using hf
        have hfc' : lookupChild c.staticChildren (nd.withName s).name = none := by
          simpa using hfc
        rw [show insertPath full c [s] nd = (addCmd c (nd.withName s)).map (·.1)
              from rfl,
            addCmd_static_new hd2 hch hfc'] at he
        simp only [Except.map, Except.ok.injEq] at he
        subst he
        simp only [chain, hps, if_false, Cmd.staticChildren_withStaticChildren,
          Bool.false_eq_true]
        refine ⟨(nd.withName s).withKind .StaticKind, ?_, by simp [chain]⟩
        rw [show (nd.withName s).name = s by simp] at hfc' ⊢
        rw [lookupChild_append_none hfc']
        simp [lookupChild]
      | cons s2 rest2 =>
        cases hcl : lookupChild c.staticChildren s with
        | some d =>
          rw [insertPath_cons_static_some hdata hch hcl] at he
          cases hrec : insertPath full d (s2 :: rest2) nd with
          | error e => rw [hrec] at he; cases he
          | ok d2 =>
            rw [hrec] at he
            simp only [Except.ok.injEq] at he
            subst he
            have hf' : freeAt d (s2 :: rest2) = true := by
              simpa [freeAt, hps, hcl] using hf
            have := ih hv'.2 hf' hrec (by simp)
            simp only [chain, hps, if_false, Cmd.staticChildren_withStaticChildren,
              Bool.false_eq_true]
            exact ⟨d2, lookupChild_update_self hcl, this⟩
        | none =>
          rw [insertPath_cons_static_none hdata hch hcl] at he
          cases hrec : insertPath full ((Cmd.empty.withName s).withKind .StaticKind)
              (s2 :: rest2) nd with
          | error e => rw [hrec] at he; cases he
          | ok d2 =>
            rw [hrec] at he
            simp only [Except.ok.injEq] at he
            subst he
            have hf' : freeAt ((Cmd.empty.withName s).withKind .StaticKind)
                (s2 :: rest2) = true :=
              @freeAt_bare ((Cmd.empty.withName s).withKind .StaticKind)
                rfl rfl _
            have := ih hv'.2 hf' hrec (by simp)
            simp only [chain, hps, if_false, Cmd.staticChildren_withStaticChildren,
              Bool.false_eq_true]
            refine ⟨d2, ?_, this⟩
            rw [lookupChild_append_none hcl]
            simp [lookupChild]

theorem chain_nil {c : Cmd} {h : String} : chain c [] h ↔ c.help = h := Iff.rfl

theorem chain_cons_param {c : Cmd} {p : String} {pr : List String} {h : String}
    (hps : isParamSeg p = true) :
    chain c (p :: pr) h ↔ ∃ pc, c.paramChild = some pc ∧ chain pc pr h := by
  simp [chain, hps]

theorem chain_cons_static {c : Cmd} {p : String} {pr : List String} {h : String}
    (hps : isParamSeg p = false) :
    chain c (p :: pr) h ↔
      ∃ d, lookupChild c.staticChildren p = some d ∧ chain d pr h := by
  simp [chain, hps]

theorem addCmd_empty {parent child : Cmd} (hd : child.name.data = []) :
    addCmd parent child = .error .indexOutOfRange := by
  unfold addCmd
  rw [hd]

theorem insertPath_cons_empty {full : String} {c nd : Cmd} {s s2 : String}
    {rest : List String} (hd : s.data = []) :
    insertPath full c (s :: s2 :: rest) nd = .error .indexOutOfRange := by
  simp only [insertPath]
  rw [hd]

theorem insertPath_cons_param_short {full : String} {c nd : Cmd} {s s2 : String}
    {rest : List String} {ch : Char} {tl : List Char}
    (hd : s.data = ch :: tl) (hch : ch = ':') (hlen : s.length < 2) :
    insertPath full c (s :: s2 :: rest) nd = .error (.panicMsg (wildcardMsg full)) := by
  simp only [insertPath]
  rw [hd]
  subst hch
  simp [hlen]

/-- Registration never disturbs an existing chain: every slot it writes is
either fresh or the updated version of the same node. -/
theorem insertPath_chain_mono (Q : List String) :
    ∀ {full : String} {c nd t : Cmd} {P : List String} {h : String},
    insertPath full c Q nd = .ok t → chain c P h → chain t P h := by
  induction Q with
  | nil =>
    intro full c nd t P h he hc
    simp only [insertPath, Except.ok.injEq] at he
    subst he; exact hc
  | cons s rest ihQ =>
    intro full c nd t P h he hc
    cases hdata : s.data with
    | nil =>
      cases rest with
      | nil =>
        rw [show insertPath full c [s] nd = (addCmd c (nd.withName s)).map (·.1)
              from rfl,
            addCmd_empty (by simpa using hdata)] at he
        cases he
      | cons s2 rest2 =>
        rw [insertPath_cons_empty hdata] at he
        cases he
    | cons ch tl =>
      have hd2 : (nd.withName s).name.data = ch :: tl := by simpa using hdata
      by_cases hch : ch = ':'
      · -- wildcard segment of the registration path
        cases rest with
        | nil =>
          cases hcp : c.paramChild with
          | some pc =>
            rw [show insertPath full c [s] nd = (addCmd c (nd.withName s)).map (·.1)
                  from rfl,
                addCmd_param_exists hd2 hch hcp] at he
            simp only [Except.map, Except.ok.injEq] at he
            subst he; exact hc
          | none =>
            rw [show insertPath full c [s] nd = (addCmd c (nd.withName s)).map (·.1)
                  from rfl,
                addCmd_param_new hd2 hch hcp] at he
            simp only [Except.map, Except.ok.injEq] at he
            subst he
            cases P with
            | nil =>
              rw [chain_nil] at hc ⊢
              simpa using hc
            | cons p pr =>
              by_cases hpp : isParamSeg p = true
              · rw [chain_cons_param hpp] at hc
                obtain ⟨pc', hcp', _⟩ := hc
                rw [hcp] at hcp'
                cases hcp'
              · have hpp' : isParamSeg p = false := by simpa using hpp
                rw [chain_cons_static hpp'] at hc ⊢
                obtain ⟨d, hl, hcd⟩ := hc
                exact ⟨d, by simpa using hl, hcd⟩
        | cons s2 rest2 =>
          by_cases hlen : s.length < 2
          · rw [insertPath_cons_param_short hdata hch hlen] at he
            cases he
          · cases hcp : c.paramChild with
            | some pc =>
              rw [insertPath_cons_param_some hdata hch hlen hcp] at he
              cases hrec : insertPath full pc (s2 :: rest2) nd with
              | error e => rw [hrec] at he; cases he
              | ok pc2 =>
                rw [hrec] at he
                simp only [Except.ok.injEq] at he
                subst he
                cases P with
                | nil =>
                  rw [chain_nil] at hc ⊢
                  simpa using hc
                | cons p pr =>
                  by_cases hpp : isParamSeg p = true
                  · rw [chain_cons_param hpp] at hc ⊢
                    obtain ⟨pc', hcp', hcd⟩ := hc
                    rw [hcp] at hcp'
                    cases hcp'
                    exact ⟨pc2, by simp, ihQ hrec hcd⟩
                  · have hpp' : isParamSeg p = false := by simpa using hpp
                    rw [chain_cons_static hpp'] at hc ⊢
                    obtain ⟨d, hl, hcd⟩ := hc
                    exact ⟨d, by simpa using hl, hcd⟩
            | none =>
              rw [insertPath_cons_param_none hdata hch hlen hcp] at he
              cases hrec : insertPath full
                  ((Cmd.empty.withName (goDrop s 1)).withKind .ParamKind)
                  (s2 :: rest2) nd with
              | error e => rw [hrec] at he; cases he
              | ok pc2 =>
                rw [hrec] at he
                simp only [Except.ok.injEq] at he
                subst he
                cases P with
                | nil =>
                  rw [chain_nil] at hc ⊢
                  simpa using hc
                | cons p pr =>
                  by_cases hpp : isParamSeg p = true
                  · rw [chain_cons_param hpp] at hc
                    obtain ⟨pc', hcp', _⟩ := hc
                    rw [hcp] at hcp'
                    cases hcp'
                  · have hpp' : isParamSeg p = false := by simpa using hpp
                    rw [chain_cons_static hpp'] at hc ⊢
                    obtain ⟨d, hl, hcd⟩ := hc
                    exact ⟨d, by simpa using hl, hcd⟩
      · -- static segment of the registration path
        cases rest with
        | nil =>
          cases hl : lookupChild c.staticChildren (nd.withName s).name with
          | some ex =>
            rw [show insertPath full c [s] nd = (addCmd c (nd.withName s)).map (·.1)
                  from rfl,
                addCmd_static_exists hd2 hch hl] at he
            simp only [Except.map, Except.ok.injEq] at he
            subst he; exact hc
          | none =>
            rw [show insertPath full c [s] nd = (addCmd c (nd.withName s)).map (·.1)
                  from rfl,
                addCmd_static_new hd2 hch hl] at he
            simp only [Except.map, Except.ok.injEq] at he
            subst he
            cases P with
            | nil =>
              rw [chain_nil] at hc ⊢
              simpa using hc
            | cons p pr =>
              by_cases hpp : isParamSeg p = true
              · rw [chain_cons_param hpp] at hc ⊢
                obtain ⟨pc', hcp', hcd⟩ := hc
                exact ⟨pc', by simpa using hcp', hcd⟩
              · have hpp' : isParamSeg p = false := by simpa using hpp
                rw [chain_cons_static hpp'] at hc ⊢
                obtain ⟨d, hle, hcd⟩ := hc
                refine ⟨d, ?_, hcd⟩
                simp only [Cmd.staticChildren_withStaticChildren]
                exact lookupChild_append_some hle
        | cons s2 rest2 =>
          cases hl : lookupChild c.staticChildren s with
          | some d =>
            rw [insertPath_cons_static_some hdata hch hl] at he
            cases hrec : insertPath full d (s2 :: rest2) nd with
            | error e => rw [hrec] at he; cases he
            | ok d2 =>
              rw [hrec] at he
              simp only [Except.ok.injEq] at he
              subst he
              cases P with
              | nil =>
                rw [chain_nil] at hc ⊢
                simpa using hc
              | cons p pr =>
                by_cases hpp : isParamSeg p = true
                · rw [chain_cons_param hpp] at hc ⊢
                  obtain ⟨pc', hcp', hcd⟩ := hc
                  exact ⟨pc', by simpa using hcp', hcd⟩
                · have hpp' : isParamSeg p = false := by simpa using hpp
                  rw [chain_cons_static hpp'] at hc ⊢
                  obtain ⟨e, hle, hcd⟩ := hc
                  by_cases hpse : p = s
                  · subst hpse
                    rw [hl] at hle
                    cases hle
                    refine ⟨d2, ?_, ihQ hrec hcd⟩
                    simp only [Cmd.staticChildren_withStaticChildren]
                    exact lookupChild_update_self hl
                  · refine ⟨e, ?_, hcd⟩
                    simp only [Cmd.staticChildren_withStaticChildren]
                    rw [lookupChild_update_ne hpse]
                    exact hle
          | none =>
            rw [insertPath_cons_static_none hdata hch hl] at he
            cases hrec : insertPath full ((Cmd.empty.withName s).withKind .StaticKind)
                (s2 :: rest2) nd with
            | error e => rw [hrec] at he; cases he
            | ok d2 =>
              rw [hrec] at he
              simp only [Except.ok.injEq] at he
              subst he
              cases P with
              | nil =>
                rw [chain_nil] at hc ⊢
                simpa using hc
              | cons p pr =>
                by_cases hpp : isParamSeg p = true
                · rw [chain_cons_param hpp] at hc ⊢
                  obtain ⟨pc', hcp', hcd⟩ := hc
                  exact ⟨pc', by simpa using hcp', hcd⟩
                · have hpp' : isParamSeg p = false := by simpa using hpp
                  rw [chain_cons_static hpp'] at hc ⊢
                  obtain ⟨e, hle, hcd⟩ := hc
                  refine ⟨e, ?_, hcd⟩
                  simp only [Cmd.staticChildren_withStaticChildren]
                  exact lookupChild_append_some hle

theorem plain_bare {b : Cmd} (h1 : b.aliases = []) (h2 : b.staticChildren = [])
    (h3 : b.paramChild = none) : Plain b := by
  refine Plain.intro b h1 ?_ ?_ ?_
  · intro k d hm; rw [h2] at hm; cases hm
  · intro k d hm; rw [h2] at hm; cases hm
  · intro pc hm; rw [h3] at hm; cases hm

/-- Registration of a plain leaf into a plain tree keeps the tree plain. -/
theorem insertPath_plain (Q : List String) :
    ∀ {full : String} {c nd t : Cmd},
    Plain c → nd.aliases = [] → nd.staticChildren = [] → nd.paramChild = none →
    insertPath full c Q nd = .ok t → Plain t := by
  induction Q with
  | nil =>
    intro full c nd t hp _ _ _ he
    simp only [insertPath, Except.ok.injEq] at he
    subst he; exact hp
  | cons s rest ihQ =>
    intro full c nd t hp hna hns hnp he
    cases hdata : s.data with
    | nil =>
      cases rest with
      | nil =>
        rw [show insertPath full c [s] nd = (addCmd c (nd.withName s)).map (·.1)
              from rfl,
            addCmd_empty (by simpa using hdata)] at he
        cases he
      | cons s2 rest2 =>
        rw [insertPath_cons_empty hdata] at he
        cases he
    | cons ch tl =>
      have hd2 : (nd.withName s).name.data = ch :: tl := by simpa using hdata
      by_cases hch : ch = ':'
      · cases rest with
        | nil =>
          cases hcp : c.paramChild with
          | some pc =>
            rw [show insertPath full c [s] nd = (addCmd c (nd.withName s)).map (·.1)
                  from rfl,
                addCmd_param_exists hd2 hch hcp] at he
            simp only [Except.map, Except.ok.injEq] at he
            subst he; exact hp
          | none =>
            rw [show insertPath full c [s] nd = (addCmd c (nd.withName s)).map (·.1)
                  from rfl,
                addCmd_param_new hd2 hch hcp] at he
            simp only [Except.map, Except.ok.injEq] at he
            subst he
            refine Plain.intro _ (by simpa using hp.aliases_eq) ?_ ?_ ?_
            · intro k d hm
              exact hp.key_not_param (by simpa using hm)
            · intro k d hm
              exact hp.static_plain (by simpa using hm)
            · intro pc hm
              simp only [Cmd.paramChild_withParamChild, Option.some.injEq] at hm
              subst hm
              exact plain_bare (by simpa using hna) (by simpa using hns)
                (by simpa using hnp)
        | cons s2 rest2 =>
          by_cases hlen : s.length < 2
          · rw [insertPath_cons_param_short hdata hch hlen] at he
            cases he
          · cases hcp : c.paramChild with
            | some pc =>
              rw [insertPath_cons_param_some hdata hch hlen hcp] at he
              cases hrec : insertPath full pc (s2 :: rest2) nd with
              | error e => rw [hrec] at he; cases he
              | ok pc2 =>
                rw [hrec] at he
                simp only [Except.ok.injEq] at he
                subst he
                have hpc2 : Plain pc2 := ihQ (hp.param_plain hcp) hna hns hnp hrec
                refine Plain.intro _ (by simpa using hp.aliases_eq) ?_ ?_ ?_
                · intro k d hm
                  exact hp.key_not_param (by simpa using hm)
                · intro k d hm
                  exact hp.static_plain (by simpa using hm)
                · intro pc' hm
                  simp only [Cmd.paramChild_withParamChild, Option.some.injEq] at hm
                  subst hm; exact hpc2
            | none =>
              rw [insertPath_cons_param_none hdata hch hlen hcp] at he
              cases hrec : insertPath full
                  ((Cmd.empty.withName (goDrop s 1)).withKind .ParamKind)
                  (s2 :: rest2) nd with
              | error e => rw [hrec] at he; cases he
              | ok pc2 =>
                rw [hrec] at he
                simp only [Except.ok.injEq] at he
                subst he
                have hpc2 : Plain pc2 :=
                  ihQ (@plain_bare ((Cmd.empty.withName (goDrop s 1)).withKind .ParamKind)
                    rfl rfl rfl) hna hns hnp hrec
                refine Plain.intro _ (by simpa using hp.aliases_eq) ?_ ?_ ?_
                · intro k d hm
                  exact hp.key_not_param (by simpa using hm)
                · intro k d hm
                  exact hp.static_plain (by simpa using hm)
                · intro pc' hm
                  simp only [Cmd.paramChild_withParamChild, Option.some.injEq] at hm
                  subst hm; exact hpc2
      · -- static segment
        have hkey : isParamSeg s = false := by
          rw [isParamSeg_of_head hdata]; simp [hch]
        cases rest with
        | nil =>
          cases hl : lookupChild c.staticChildren (nd.withName s).name with
          | some ex =>
            rw [show insertPath full c [s] nd = (addCmd c (nd.withName s)).map (·.1)
                  from rfl,
                addCmd_static_exists hd2 hch hl] at he
            simp only [Except.map, Except.ok.injEq] at he
            subst he; exact hp
          | none =>
            rw [show insertPath full c [s] nd = (addCmd c (nd.withName s)).map (·.1)
                  from rfl,
                addCmd_static_new hd2 hch hl] at he
            simp only [Except.map, Except.ok.injEq] at he
            subst he
            refine Plain.intro _ (by simpa using hp.aliases_eq) ?_ ?_ ?_
            · intro k d hm
              simp only [Cmd.staticChildren_withStaticChildren, List.mem_append,
                List.mem_singleton, Prod.mk.injEq] at hm
              rcases hm with hm | ⟨hk, _⟩
              · exact hp.key_not_param hm
              · subst hk; simpa using hkey
            · intro k d hm
              simp only [Cmd.staticChildren_withStaticChildren, List.mem_append,
                List.mem_singleton, Prod.mk.injEq] at hm
              rcases hm with hm | ⟨_, hd⟩
              · exact hp.static_plain hm
              · subst hd
                exact plain_bare (by simpa using hna) (by simpa using hns)
                  (by simpa using hnp)
            · intro pc hm
              exact hp.param_plain (by simpa using hm)
        | cons s2 rest2 =>
          cases hl : lookupChild c.staticChildren s with
          | some d =>
            rw [insertPath_cons_static_some hdata hch hl] at he
            cases hrec : insertPath full d (s2 :: rest2) nd with
            | error e => rw [hrec] at he; cases he
            | ok d2 =>
              rw [hrec] at he
              simp only [Except.ok.injEq] at he
              subst he
              have hd2p : Plain d2 :=
                ihQ (hp.static_plain (lookupChild_mem hl)) hna hns hnp hrec
              refine Plain.intro _ (by simpa using hp.aliases_eq) ?_ ?_ ?_
              · intro k e hm
                simp only [Cmd.staticChildren_withStaticChildren] at hm
                rcases updateChild_mem hm with ⟨hk, _⟩ | hm
                · subst hk; exact hkey
                · exact hp.key_not_param hm
              · intro k e hm
                simp only [Cmd.staticChildren_withStaticChildren] at hm
                rcases updateChild_mem hm with ⟨_, hev⟩ | hm
                · subst hev; exact hd2p
                · exact hp.static_plain hm
              · intro pc hm
                exact hp.param_plain (by simpa using hm)
          | none =>
            rw [insertPath_cons_static_none hdata hch hl] at he
            cases hrec : insertPath full ((Cmd.empty.withName s).withKind .StaticKind)
                (s2 :: rest2) nd with
            | error e => rw [hrec] at he; cases he
            | ok d2 =>
              rw [hrec] at he
              simp only [Except.ok.injEq] at he
              subst he
              have hd2p : Plain d2 :=
                ihQ (@plain_bare ((Cmd.empty.withName s).withKind .StaticKind)
                  rfl rfl rfl) hna hns hnp hrec
              refine Plain.intro _ (by simpa using hp.aliases_eq) ?_ ?_ ?_
              · intro k e hm
                simp only [Cmd.staticChildren_withStaticChildren, List.mem_append,
                  List.mem_singleton, Prod.mk.injEq] at hm
                rcases hm with hm | ⟨hk, _⟩
                · exact hp.key_not_param hm
                · subst hk; exact hkey
              · intro k e hm
                simp only [Cmd.staticChildren_withStaticChildren, List.mem_append,
                  List.mem_singleton, Prod.mk.injEq] at hm
                rcases hm with hm | ⟨_, hev⟩
                · exact hp.static_plain hm
                · subst hev; exact hd2p
              · intro pc hm
                exact hp.param_plain (by simpa using hm)

/-- Once the walk has matched some node, it never reports "no match". -/
theorem findCmdLoop_isSome (args : List String) :
    ∀ (cur d : Cmd) (ctx : Context),
    (findCmdLoop cur (some d) ctx args).1.isSome = true := by
  induction args with
  | nil => intro cur d ctx; rfl
  | cons a rest ih =>
    intro cur d ctx
    simp only [findCmdLoop]
    cases h : findChildCmd cur a with
    | none => rfl
    | some cmd1 => exact ih cmd1 cmd1 _

/-- Resolution follows a chain in a plain tree: static tokens hit the exact
match, marker tokens cannot be captured by a static name or an alias and
fall through to the wildcard child. -/
theorem findCmdLoop_chain (P : List String) :
    ∀ (c : Cmd) (acc : Option Cmd) (ctx : Context) (h : String),
    Plain c → chain c P h → P ≠ [] →
    ∃ n ctx2, findCmdLoop c acc ctx P = (some n, [], ctx2) ∧ n.help = h := by
  induction P with
  | nil => intro _ _ _ _ _ _ hne; exact absurd rfl hne
  | cons s rest ih =>
    intro c acc ctx h hp hc _
    by_cases hps : isParamSeg s = true
    · rw [chain_cons_param hps] at hc
      obtain ⟨pc, hcp, hcr⟩ := hc
      have hstep : findChildCmd c s = some pc := by
        rw [findChildCmd_param hp hps, hcp]
      cases rest with
      | nil =>
        refine ⟨pc, if pc.kind = Kind.ParamKind
            then { ctx with params := ctx.params ++ [⟨pc.name, s⟩] } else ctx,
          ?_, hcr⟩
        simp only [findCmdLoop, hstep]
      | cons s2 r2 =>
        obtain ⟨n, ctx2, hres, hh⟩ :=
          ih pc (some pc) (if pc.kind = Kind.ParamKind
            then { ctx with params := ctx.params ++ [⟨pc.name, s⟩] } else ctx)
            h (hp.param_plain hcp) hcr (by simp)
        refine ⟨n, ctx2, ?_, hh⟩
        simp only [findCmdLoop, hstep]
        exact hres
    · have hps' : isParamSeg s = false := by simpa using hps
      rw [chain_cons_static hps'] at hc
      obtain ⟨d, hl, hcr⟩ := hc
      have hstep : findChildCmd c s = some d := findChildCmd_static hl
      cases rest with
      | nil =>
        refine ⟨d, if d.kind = Kind.ParamKind
            then { ctx with params := ctx.params ++ [⟨d.name, s⟩] } else ctx,
          ?_, hcr⟩
        simp only [findCmdLoop, hstep]
      | cons s2 r2 =>
        obtain ⟨n, ctx2, hres, hh⟩ :=
          ih d (some d) (if d.kind = Kind.ParamKind
            then { ctx with params := ctx.params ++ [⟨d.name, s⟩] } else ctx)
            h (hp.static_plain (lookupChild_mem hl)) hcr (by simp)
        refine ⟨n, ctx2, ?_, hh⟩
        simp only [findCmdLoop, hstep]
        exact hres

/-- Walking one well-formed segment propagates any error produced deeper in
the path. -/
theorem insertPath_error_through_valid_seg {full : String} {nd : Cmd}
    (a : String) (L : List String) (e : GoError)
    (hva : validSeg a = true) (hL : L ≠ [])
    (IH : ∀ c2 : Cmd, insertPath full c2 L nd = .error e) :
    ∀ c : Cmd, insertPath full c (a :: L) nd = .error e := by
  intro c
  obtain ⟨l0, L2, hcons⟩ := List.exists_cons_of_ne_nil hL
  have IH2 : ∀ c2 : Cmd, insertPath full c2 (l0 :: L2) nd = .error e := by
    intro c2
    rw [← hcons]
    exact IH c2
  rw [hcons]
  obtain ⟨hane, halen⟩ := validSeg_parts hva
  obtain ⟨ch, tl, hdata⟩ := exists_head_of_ne_empty hane
  by_cases hch : ch = ':'
  · have hlen : ¬ a.length < 2 := by
      refine Nat.not_lt.mpr (halen ?_)
      rw [isParamSeg_of_head hdata, hch]
      simp
    cases hcp : c.paramChild with
    | some pc =>
      rw [insertPath_cons_param_some hdata hch hlen hcp, IH2 pc]
    | none =>
      rw [insertPath_cons_param_none hdata hch hlen hcp, IH2 _]
  · cases hl : lookupChild c.staticChildren a with
    | some d =>
      rw [insertPath_cons_static_some hdata hch hl, IH2 d]
    | none =>
      rw [insertPath_cons_static_none hdata hch hl, IH2 _]

/-! ## Claim theorems -/

/-- C1, amended.  The original claim quantifies over every pair of distinct
registered paths; it fails when the second registration is silently
swallowed because its final slot is already occupied (see the
counterexample).  Amended with exactly that proviso: for well-formed
distinct paths P1, P2 registered in this order into an otherwise empty tree,
provided the slot of P2's final segment is still free after registering P1,
resolving the exact tokens of P1 with FindCmd returns the node registered at
P1 (marked by its help text) with empty leftover tokens, and likewise
for P2. -/
theorem c1_two_paths_resolution (P1 P2 : List String) (full1 full2 : String)
    (t1 t2 : Cmd)
    (h1 : validSegs P1 = true) (h2 : validSegs P2 = true) (_hne : P1 ≠ P2)
    (e1 : insertPath full1 emptyRoot P1 node1 = .ok t1)
    (e2 : insertPath full2 t1 P2 node2 = .ok t2)
    (hfree : freeAt t1 P2 = true) :
    ((FindCmd t2 P1 ⟨[]⟩).2.1 = [] ∧
     (FindCmd t2 P1 ⟨[]⟩).1.map Cmd.help = some "H1") ∧
    ((FindCmd t2 P2 ⟨[]⟩).2.1 = [] ∧
     (FindCmd t2 P2 ⟨[]⟩).1.map Cmd.help = some "H2") := by
  have hne1 : P1 ≠ [] := by
    intro hh; rw [hh] at h1; simp [validSegs] at h1
  have hne2 : P2 ≠ [] := by
    intro hh; rw [hh] at h2; simp [validSegs] at h2
  have hall1 : P1.all validSeg = true := by
    simp only [validSegs, Bool.and_eq_true] at h1; exact h1.2
  have hall2 : P2.all validSeg = true := by
    simp only [validSegs, Bool.and_eq_true] at h2; exact h2.2
  have hfree1 : freeAt emptyRoot P1 = true := @freeAt_bare emptyRoot rfl rfl P1
  have hplain0 : Plain emptyRoot := @plain_bare emptyRoot rfl rfl rfl
  have hp1 : Plain t1 := @insertPath_plain P1 full1 emptyRoot node1 t1 hplain0 rfl rfl rfl e1
  have hp2 : Plain t2 := @insertPath_plain P2 full2 t1 node2 t2 hp1 rfl rfl rfl e2
  have hc1 : chain t1 P1 "H1" := insertPath_chain P1 hall1 hfree1 e1 hne1
  have hc2 : chain t2 P2 "H2" := insertPath_chain P2 hall2 hfree e2 hne2
  have hc1' : chain t2 P1 "H1" := insertPath_chain_mono P2 e2 hc1
  obtain ⟨n1, cx1, hr1, hh1⟩ := findCmdLoop_chain P1 t2 none ⟨[]⟩ "H1" hp2 hc1' hne1
  obtain ⟨n2, cx2, hr2, hh2⟩ := findCmdLoop_chain P2 t2 none ⟨[]⟩ "H2" hp2 hc2 hne2
  constructor
  · constructor
    · show (findCmdLoop t2 none ⟨[]⟩ P1).2.1 = []
      rw [hr1]
    · show (findCmdLoop t2 none ⟨[]⟩ P1).1.map Cmd.help = some "H1"
      rw [hr1]
      simp [hh1]
  · constructor
    · show (findCmdLoop t2 none ⟨[]⟩ P2).2.1 = []
      rw [hr2]
    · show (findCmdLoop t2 none ⟨[]⟩ P2).1.map Cmd.help = some "H2"
      rw [hr2]
      simp [hh2]

/-- C1, counterexample to the original universal claim.  Register the path
`"a/b"` (help `"H1"`), then the distinct path `"a"` (help `"H2"`): the
second registration is silently discarded because the auto-created
placeholder already occupies the slot, and resolving the exact tokens of the
second path returns the help-less placeholder, not the node supplied for it. -/
theorem c1_counterexample :
    AddCmd emptyRoot (.mk "a/b" [] "H1" "" [] .StaticKind [] none) = .ok c1CexTree ∧
    AddCmd c1CexTree (.mk "a" [] "H2" "" [] .StaticKind [] none) = .ok c1CexTree ∧
    (FindCmd c1CexTree ["a"] ⟨[]⟩).2.1 = [] ∧
    (FindCmd c1CexTree ["a"] ⟨[]⟩).1.map Cmd.help = some "" ∧
    (some "" : Option String) ≠ some "H2" := by
  refine ⟨rfl, rfl, rfl, rfl, by decide⟩

/-- C1, witness: the amended theorem applied to the concrete paths `["a"]`
and `["b"]`. -/
theorem c1_witness :
    validSegs ["a"] = true ∧ validSegs ["b"] = true ∧
    (["a"] : List String) ≠ ["b"] ∧
    insertPath "" emptyRoot ["a"] node1 = .ok c1w1 ∧
    insertPath "" c1w1 ["b"] node2 = .ok c1w2 ∧
    freeAt c1w1 ["b"] = true ∧
    (((FindCmd c1w2 ["a"] ⟨[]⟩).2.1 = [] ∧
      (FindCmd c1w2 ["a"] ⟨[]⟩).1.map Cmd.help = some "H1") ∧
     ((FindCmd c1w2 ["b"] ⟨[]⟩).2.1 = [] ∧
      (FindCmd c1w2 ["b"] ⟨[]⟩).1.map Cmd.help = some "H2")) :=
  ⟨rfl, rfl, by decide, rfl, rfl, rfl,
    c1_two_paths_resolution ["a"] ["b"] "" "" c1w1 c1w2 rfl rfl (by decide)
      rfl rfl rfl⟩

/-- C2, amended.  The original claim says a bare wildcard marker fails
fatally whether it is an intermediate or the final segment; the source makes
the check only inside the loop over intermediate segments, so only the
intermediate position panics (the counterexample shows a final bare marker
is silently registered as a wildcard child with empty name).  Amended:
whenever a bare marker segment occurs in intermediate position — after any
well-formed leading segments — registration fails fatally with the wildcard
panic at registration time. -/
theorem c2_bare_wildcard_intermediate_panics (pre : List String) (s0 : String)
    (rest : List String) (full : String) (c nd : Cmd)
    (h : pre.all validSeg = true) :
    insertPath full c (pre ++ ":" :: s0 :: rest) nd =
      .error (.panicMsg (wildcardMsg full)) := by
  induction pre generalizing c with
  | nil =>
    exact insertPath_cons_param_short rfl rfl (by decide)
  | cons a pre2 ih =>
    have hva : validSeg a = true := by
      simp only [List.all_cons, Bool.and_eq_true] at h; exact h.1
    have hvr : pre2.all validSeg = true := by
      simp only [List.all_cons, Bool.and_eq_true] at h; exact h.2
    exact insertPath_error_through_valid_seg a _ _ hva (by simp)
      (fun c2 => ih c2 hvr) c

/-- C2, counterexample: registering the path `":"` — a bare wildcard marker
as the final segment — does not abort; it silently attaches a wildcard child
whose name is empty. -/
theorem c2_counterexample :
    AddCmd emptyRoot (Cmd.empty.withName ":") = .ok c2CexTree ∧
    c2CexTree.paramChild = some (.mk "" [] "" "" [] .ParamKind [] none) :=
  ⟨rfl, rfl⟩

/-- C2, witness: the amended theorem at the concrete path `"a" / ":" / "b"`. -/
theorem c2_witness :
    (["a"] : List String).all validSeg = true ∧
    insertPath "a/:/b" emptyRoot (["a"] ++ ":" :: "b" :: []) Cmd.empty =
      .error (.panicMsg (wildcardMsg "a/:/b")) :=
  ⟨rfl, c2_bare_wildcard_intermediate_panics ["a"] "b" [] "a/:/b" emptyRoot
    Cmd.empty rfl⟩

/-- C3: a node holds at most one wildcard child by construction (the
`paramChild` slot is a single optional field), and when a wildcard child
already exists, `addCmd` of another wildcard returns the parent unchanged
together with the existing binding — the first successful wildcard
registration wins and the later one is silently ignored. -/
theorem c3_first_wildcard_wins (parent child pc : Cmd) (cs : List Char)
    (hpc : parent.paramChild = some pc) (hname : child.name.data = ':' :: cs) :
    addCmd parent child = .ok (parent, pc) :=
  addCmd_param_exists hname rfl hpc

/-- C3, witness: register `":a"` then `":b"` under the same parent; the
parent keeps the wildcard child named `"a"` and the second registration
returns the existing binding unchanged. -/
theorem c3_witness :
    addCmd Cmd.empty (Cmd.empty.withName ":a") = .ok (c3Parent, c3aNode) ∧
    c3Parent.paramChild = some c3aNode ∧
    (Cmd.empty.withName ":b").name.data = ':' :: "b".data ∧
    addCmd c3Parent (Cmd.empty.withName ":b") = .ok (c3Parent, c3aNode) ∧
    c3aNode.name = "a" :=
  ⟨rfl, rfl, rfl, c3_first_wildcard_wins c3Parent (Cmd.empty.withName ":b")
    c3aNode "b".data rfl rfl, rfl⟩

theorem findCmdLoop_ne_none (args : List String) (cur d : Cmd) (ctx : Context) :
    (findCmdLoop cur (some d) ctx args).1 ≠ none := by
  intro h
  have hs := findCmdLoop_isSome args cur d ctx
  rw [h] at hs
  cases hs

/-- C7, amended.  The source guards the prefix branch with
`line[pos-1] != ' '` — a comparison against the space character only, not
general whitespace (see the counterexample with a tab).  Amended: if the
character immediately preceding the cursor is not a space and at least one
token exists, the final token is the in-progress prefix and only the tokens
before it feed resolution; otherwise (a space precedes the cursor, the
cursor is at position 0, or there are no tokens) the prefix is empty and
all tokens feed resolution. -/
theorem c7_prefix_split (line : List Char) (pos : Nat) (words : List String) :
    (words ≠ [] ∧ 0 < pos ∧ line.get? (pos - 1) ≠ some ' ' →
      splitPfx line pos words = (words.getLastD "", words.dropLast)) ∧
    ((words = [] ∨ pos = 0 ∨ line.get? (pos - 1) = some ' ') →
      splitPfx line pos words = ("", words)) := by
  constructor
  · rintro ⟨h1, h2, h3⟩
    have hl : words.length > 0 := List.length_pos.mpr h1
    simp only [splitPfx]
    rw [if_pos ⟨hl, h2, h3⟩]
  · intro h
    simp only [splitPfx]
    rw [if_neg]
    rintro ⟨hl, hp, hs⟩
    rcases h with h | h | h
    · rw [h] at hl; simp at hl
    · rw [h] at hp; simp at hp
    · exact hs h

/-- C7, counterexample to the original claim.  With the line `"a<TAB>"` and
the cursor after the tab, the character before the cursor is whitespace, yet
the code takes the prefix branch: the prefix is `"a"` and no token feeds
resolution, where the claim requires an empty prefix with all tokens fed. -/
theorem c7_counterexample :
    goIsSpace '\t' = true ∧
    tokenize (String.mk ['a', '\t']) = ["a"] ∧
    splitPfx ['a', '\t'] 2 (tokenize (String.mk ['a', '\t'])) = ("a", []) ∧
    (("a", ([] : List String)) ≠ ("", ["a"])) :=
  ⟨rfl, rfl, rfl, by decide⟩

/-- C7, witness: the amended theorem at concrete inputs exercising both
branches. -/
theorem c7_witness :
    ((["st"] : List String) ≠ [] ∧ 0 < 2 ∧ ['s', 't'].get? 1 ≠ some ' ') ∧
    splitPfx ['s', 't'] 2 ["st"] = ("st", []) ∧
    splitPfx ['s', 't'] 0 ["st"] = ("", ["st"]) :=
  ⟨⟨by decide, by decide, by decide⟩,
   (c7_prefix_split ['s', 't'] 2 ["st"]).1 ⟨by decide, by decide, by decide⟩,
   (c7_prefix_split ['s', 't'] 0 ["st"]).2 (Or.inr (Or.inl rfl))⟩

/-- C8: with a static child registered under `"start"` carrying alias
`"st"` (and no sibling named `"st"`, the child being the first alias
carrier), resolving the single token `"st"` returns the same node as
resolving `"start"`; the per-token step matches the exact static name
first, then an alias, then the wildcard child, as `findChildCmd` does. -/
theorem c8_alias_resolution (c child : Cmd)
    (h1 : lookupChild c.staticChildren "st" = none)
    (h2 : lookupChild c.staticChildren "start" = some child)
    (h3 : findAlias c.staticChildren "st" = some child)
    (hk : child.kind = Kind.StaticKind) :
    findChildCmd c "st" = some child ∧ findChildCmd c "start" = some child ∧
    FindCmd c ["st"] ⟨[]⟩ = (some child, [], ⟨[]⟩) ∧
    FindCmd c ["start"] ⟨[]⟩ = (some child, [], ⟨[]⟩) := by
  have hf1 : findChildCmd c "st" = some child := by
    simp [findChildCmd, h1, h3]
  have hf2 : findChildCmd c "start" = some child := findChildCmd_static h2
  refine ⟨hf1, hf2, ?_, ?_⟩
  · show findCmdLoop c none ⟨[]⟩ ["st"] = (some child, [], ⟨[]⟩)
    simp [findCmdLoop, hf1, hk]
  · show findCmdLoop c none ⟨[]⟩ ["start"] = (some child, [], ⟨[]⟩)
    simp [findCmdLoop, hf2, hk]

/-- C8, witness: the concrete tree with child `start`, alias `st`. -/
theorem c8_witness :
    lookupChild c8Root.staticChildren "st" = none ∧
    lookupChild c8Root.staticChildren "start" = some c8Start ∧
    findAlias c8Root.staticChildren "st" = some c8Start ∧
    c8Start.kind = Kind.StaticKind ∧
    (findChildCmd c8Root "st" = some c8Start ∧
     findChildCmd c8Root "start" = some c8Start ∧
     FindCmd c8Root ["st"] ⟨[]⟩ = (some c8Start, [], ⟨[]⟩) ∧
     FindCmd c8Root ["start"] ⟨[]⟩ = (some c8Start, [], ⟨[]⟩)) :=
  ⟨rfl, rfl, rfl, rfl, c8_alias_resolution c8Root c8Start rfl rfl rfl rfl⟩

/-- C9: when FindCmd matches no token at all its reported leftover is
already the entire original token list, so candidate generation falls back
to the bound root node and treats the whole original token list as the
leftover arguments (the assignment that would re-copy the token list in the
source discards its right-hand side, but behaviourally nothing is lost). -/
theorem c9_no_match_fallback (ic : ICompleter) (pfx : String) (w : List String)
    (h : (FindCmd ic.cmd w ⟨[]⟩).1 = none) :
    (FindCmd ic.cmd w ⟨[]⟩).2.1 = w ∧
    getWords ic pfx w = candidatesFor ic.cmd pfx w := by
  have hleft : (FindCmd ic.cmd w ⟨[]⟩).2.1 = w := by
    cases w with
    | nil => rfl
    | cons a rest =>
      show (findCmdLoop ic.cmd none ⟨[]⟩ (a :: rest)).2.1 = a :: rest
      simp only [findCmdLoop]
      cases hs : findChildCmd ic.cmd a with
      | none => rfl
      | some cmd1 =>
        exfalso
        simp only [FindCmd, findCmdLoop, hs] at h
        exact findCmdLoop_ne_none rest cmd1 cmd1 _ h
  refine ⟨hleft, ?_⟩
  have hgw : getWords ic pfx w =
      candidatesFor ((FindCmd ic.cmd w ⟨[]⟩).1.getD ic.cmd) pfx
        ((FindCmd ic.cmd w ⟨[]⟩).2.1) := rfl
  rw [hgw, h, hleft]
  simp

/-- C9, witness: a token no child matches, against the empty root. -/
theorem c9_witness :
    (FindCmd Cmd.empty ["zzz"] ⟨[]⟩).1 = none ∧
    ((FindCmd Cmd.empty ["zzz"] ⟨[]⟩).2.1 = ["zzz"] ∧
     getWords ⟨Cmd.empty, false⟩ "" ["zzz"] =
       candidatesFor Cmd.empty "" ["zzz"]) :=
  ⟨rfl, c9_no_match_fallback ⟨Cmd.empty, false⟩ "" ["zzz"] rfl⟩

/-- C10, amended.  `DeleteCmd` with an empty name, and any registration
path whose first offending segment (in walk order) is empty — e.g. one
produced by a doubled separator or a separator-only path — reads `name[0]`
out of range instead of raising one of the documented setup-time panics.
The amendment restricts the original "every path containing an empty
segment" to those where no earlier intermediate segment is a bare wildcard
marker, since such a marker triggers the documented wildcard panic first
(see the counterexample). -/
theorem c10_empty_segment_oob :
    (∀ c : Cmd, DeleteCmd c "" = .error .indexOutOfRange) ∧
    (∀ (pre rest : List String) (full : String) (c nd : Cmd),
      pre.all validSeg = true →
      insertPath full c (pre ++ "" :: rest) nd = .error .indexOutOfRange) ∧
    AddCmd emptyRoot (Cmd.empty.withName "a//b") = .error .indexOutOfRange ∧
    AddCmd emptyRoot (Cmd.empty.withName "//") = .error .indexOutOfRange := by
  refine ⟨fun c => rfl, ?_, rfl, rfl⟩
  intro pre rest full c nd
  induction pre generalizing c with
  | nil =>
    intro _
    simp only [List.nil_append]
    cases rest with
    | nil =>
      rw [show insertPath full c [""] nd = (addCmd c (nd.withName "")).map (·.1)
            from rfl,
          addCmd_empty (by simp)]
      rfl
    | cons r rs =>
      exact insertPath_cons_empty rfl
  | cons a pre2 ih =>
    intro h
    have hva : validSeg a = true := by
      simp only [List.all_cons, Bool.and_eq_true] at h; exact h.1
    have hvr : pre2.all validSeg = true := by
      simp only [List.all_cons, Bool.and_eq_true] at h; exact h.2
    exact insertPath_error_through_valid_seg a _ _ hva (by simp)
      (fun c2 => ih c2 hvr) c

/-- C10, counterexample to the original universal phrasing: the path
`":/a//b"` contains an empty segment, yet the walk reaches the bare
intermediate wildcard marker first and aborts with the documented wildcard
panic, not an out-of-range access. -/
theorem c10_counterexample :
    AddCmd emptyRoot (Cmd.empty.withName ":/a//b") =
      .error (.panicMsg (wildcardMsg ":/a//b")) ∧
    (splitChar '/' ":/a//b").contains "" = true ∧
    GoError.panicMsg (wildcardMsg ":/a//b") ≠ .indexOutOfRange :=
  ⟨rfl, by decide, by decide⟩

/-- C10, witness: the amended theorem at the doubled-separator path
`"a//b"` and at `DeleteCmd` with the empty name. -/
theorem c10_witness :
    ((["a"] : List String).all validSeg = true) ∧
    insertPath "a//b" emptyRoot (["a"] ++ "" :: ["b"]) Cmd.empty =
      .error .indexOutOfRange ∧
    DeleteCmd Cmd.empty "" = .error .indexOutOfRange :=
  ⟨rfl, c10_empty_segment_oob.2.1 ["a"] ["b"] "a//b" emptyRoot Cmd.empty rfl,
   c10_empty_segment_oob.1 Cmd.empty⟩

theorem charListLe_total : ∀ (x y : List Char),
    charListLe x y = true ∨ charListLe y x = true := by
  intro x
  induction x with
  | nil => intro y; left; rfl
  | cons a as ih =>
    intro y
    cases y with
    | nil => right; rfl
    | cons b bs =>
      by_cases hab : a < b
      · left; simp only [charListLe]; rw [if_pos hab]
      · by_cases hba : b < a
        · right; simp only [charListLe]; rw [if_pos hba]
        · rcases ih bs with h | h
          · left
            simp only [charListLe]
            rw [if_neg hab, if_neg hba]
            exact h
          · right
            simp only [charListLe]
            rw [if_neg hba, if_neg hab]
            exact h

theorem charListLe_trans : ∀ (x y z : List Char), charListLe x y = true →
    charListLe y z = true → charListLe x z = true := by
  intro x
  induction x with
  | nil => intro y z _ _; rfl
  | cons a as ih =>
    intro y z h1 h2
    cases y with
    | nil => simp [charListLe] at h1
    | cons b bs =>
      cases z with
      | nil => simp [charListLe] at h2
      | cons c cs =>
        simp only [charListLe] at h1 h2 ⊢
        by_cases hab : a < b
        · by_cases hbc : b < c
          · rw [if_pos (lt_trans hab hbc)]
          · by_cases hcb : c < b
            · rw [if_neg hbc, if_pos hcb] at h2; cases h2
            · have hbceq : b = c := le_antisymm (not_lt.mp hcb) (not_lt.mp hbc)
              subst hbceq
              rw [if_pos hab]
        · by_cases hba : b < a
          · rw [if_neg hab, if_pos hba] at h1; cases h1
          · have habeq : a = b := le_antisymm (not_lt.mp hba) (not_lt.mp hab)
            subst habeq
            rw [if_neg hab, if_neg hba] at h1
            by_cases hac : a < c
            · rw [if_pos hac]
            · by_cases hca : c < a
              · rw [if_neg hac, if_pos hca] at h2; cases h2
              · have haceq : a = c := le_antisymm (not_lt.mp hca) (not_lt.mp hac)
                subst haceq
                rw [if_neg hac, if_neg hac] at h2 ⊢
                exact ih bs cs h1 h2

theorem goStrLe_total (s t : String) : goStrLe s t = true ∨ goStrLe t s = true :=
  charListLe_total s.data t.data

theorem goStrLe_trans {s t u : String} (h1 : goStrLe s t = true)
    (h2 : goStrLe t u = true) : goStrLe s u = true :=
  charListLe_trans s.data t.data u.data h1 h2

theorem childSuggestions_param_false {cmd : Cmd} {pfx : String} {sg : Suggestion}
    (h : sg ∈ childSuggestions cmd pfx) : sg.param = false := by
  simp only [childSuggestions, List.mem_map] at h
  obtain ⟨kc, _, heq⟩ := h
  rw [← heq]

/-- C4: a node whose static children are exactly `start`, `stop` and
`status` (with arbitrary subtrees), with no argument specs and no wildcard
child, completed at the end of the line `"st"`: the suggestion strings are
exactly the prefix-stripped `{art, atus, op}` in sorted order, the reported
candidate count is 3, and the replace length is 2, the length of the typed
prefix. -/
theorem c4_completion_st (n : String) (al : List String) (hp lh : String)
    (k : Kind) (c1 c2 c3 : Cmd) :
    Do ⟨.mk n al hp lh [] k [("start", c1), ("stop", c2), ("status", c3)] none,
        false⟩ "st".data 2 = (["art", "atus", "op"], 3, 2) := by
  rfl

/-- C5: when the resolved node has a Pair-type argument spec named `--out`
(the first matching one), no wildcard child, and the most recent leftover
token is exactly `--out`, candidate generation offers exactly one parameter
suggestion — the value slot of that spec — besides the static-child
suggestions, and no other argument-spec name is offered. -/
theorem c5_pair_value_slot (ic : ICompleter) (pfx : String) (w args : List String)
    (cmd : Cmd) (ctx : Context) (spec : Arg)
    (hres : FindCmd ic.cmd w ⟨[]⟩ = (some cmd, args, ctx))
    (hparam : cmd.paramChild = none)
    (hlast : args.getLast? = some "--out")
    (hfind : cmd.args.find? (fun a => a.name == "--out" && a.pair) = some spec) :
    getWords ic pfx w =
      sortSuggs (childSuggestions cmd pfx ++
        [⟨spec.name, true, spec.optional, spec.help⟩]) ∧
    (getWords ic pfx w).filter (·.param) =
      [⟨spec.name, true, spec.optional, spec.help⟩] := by
  have hgw : getWords ic pfx w =
      candidatesFor ((FindCmd ic.cmd w ⟨[]⟩).1.getD ic.cmd) pfx
        ((FindCmd ic.cmd w ⟨[]⟩).2.1) := rfl
  rw [hres] at hgw
  simp only [Option.getD_some] at hgw
  have hps : paramSuggestion cmd = [] := by
    simp [paramSuggestion, hparam]
  have hslot : pairSlot cmd.args args =
      some ⟨spec.name, true, spec.optional, spec.help⟩ := by
    simp [pairSlot, hlast, hfind]
  have hraw : rawCandidates cmd pfx args =
      childSuggestions cmd pfx ++ [⟨spec.name, true, spec.optional, spec.help⟩] := by
    simp [rawCandidates, hps, hslot]
  have h1 : getWords ic pfx w =
      sortSuggs (childSuggestions cmd pfx ++
        [⟨spec.name, true, spec.optional, spec.help⟩]) := by
    rw [hgw]
    simp only [candidatesFor, hraw]
  refine ⟨h1, ?_⟩
  rw [h1]
  have hperm : List.Perm
      (sortSuggs (childSuggestions cmd pfx ++
        [⟨spec.name, true, spec.optional, spec.help⟩]))
      (childSuggestions cmd pfx ++ [⟨spec.name, true, spec.optional, spec.help⟩]) :=
    List.perm_insertionSort _ _
  have hfil := hperm.filter (·.param)
  have hright : (childSuggestions cmd pfx ++
      [(⟨spec.name, true, spec.optional, spec.help⟩ : Suggestion)]).filter (·.param) =
      [⟨spec.name, true, spec.optional, spec.help⟩] := by
    rw [List.filter_append]
    have h0 : (childSuggestions cmd pfx).filter (·.param) = [] := by
      rw [List.filter_eq_nil_iff]
      intro a ha
      simp [childSuggestions_param_false ha]
    rw [h0]
    simp [List.filter]
  rw [hright] at hfil
  exact List.perm_singleton.mp hfil

/-- C5, witness: the node `job` with a Pair spec `--out` and one further
spec `--v`, with the line resolved from the root over `job --out`. -/
theorem c5_witness :
    FindCmd c5Root ["job", "--out"] ⟨[]⟩ = (some c5Job, ["--out"], ⟨[]⟩) ∧
    c5Job.paramChild = none ∧
    (["--out"] : List String).getLast? = some "--out" ∧
    c5Job.args.find? (fun a => a.name == "--out" && a.pair) =
      some ⟨"--out", true, false, "o"⟩ ∧
    (getWords ⟨c5Root, false⟩ "" ["job", "--out"] =
       sortSuggs (childSuggestions c5Job "" ++ [⟨"--out", true, false, "o"⟩]) ∧
     (getWords ⟨c5Root, false⟩ "" ["job", "--out"]).filter (·.param) =
       [⟨"--out", true, false, "o"⟩]) :=
  ⟨rfl, rfl, rfl, rfl,
   c5_pair_value_slot ⟨c5Root, false⟩ "" ["job", "--out"] ["--out"] c5Job ⟨[]⟩
     ⟨"--out", true, false, "o"⟩ rfl rfl rfl rfl⟩

theorem append_ne_empty_left {s : String} (t : String) (h : s ≠ "") :
    s ++ t ≠ "" := by
  intro he
  apply h
  apply String.ext
  have hd : (s ++ t).data = [] := by rw [he]
  rw [String.data_append] at hd
  simpa using (List.append_eq_nil.mp hd).1

theorem helpParagraph_name_case (n : String) :
    "\n" ++ n ++ " has no help\n" = "\n" ++ (n ++ " has no help") ++ "\n" := by
  apply String.ext
  simp [String.data_append]

/-- C6, amended.  `HelpText` renders, after the node's own resolved help
paragraph, a `Commands:` header with one column-aligned line per child
sorted by name — but each line pairs the child's name with the child's
one-line `Help` field verbatim (possibly empty), not with the child's
resolved help text (the source writes `child.Help`, see the
counterexample). -/
theorem c6_fullhelp (c : Cmd) (h : hasSubcommand c = true) :
    HelpText c =
      (if resolvedHelp c = "" then "" else "\n" ++ resolvedHelp c ++ "\n") ++
      "\nCommands:\n" ++
      String.join ((Children c).map (fun d =>
        "  " ++ d.name ++ padSpaces (maxNameLen (Children c) + 2 - d.name.length) ++
          "    " ++ d.help ++ "\n")) ++ "\n" ∧
    List.Sorted (fun a b : Cmd => goStrLe a.name b.name = true) (Children c) := by
  constructor
  · have hpar : (if c.longHelp ≠ "" then "\n" ++ c.longHelp ++ "\n"
        else if c.help ≠ "" then "\n" ++ c.help ++ "\n"
        else if c.name ≠ "" then "\n" ++ c.name ++ " has no help\n" else "") =
        (if resolvedHelp c = "" then "" else "\n" ++ resolvedHelp c ++ "\n") := by
      unfold resolvedHelp
      by_cases h1 : c.longHelp = ""
      · by_cases h2 : c.help = ""
        · by_cases h3 : c.name = ""
          · simp [h1, h2, h3]
          · have hne : c.name ++ " has no help" ≠ "" :=
              append_ne_empty_left _ h3
            simp [h1, h2, h3, hne, helpParagraph_name_case]
        · simp [h1, h2]
      · simp [h1]
    simp only [HelpText, maxNameLen]
    rw [if_pos h, hpar]
    simp [String.append_assoc]
  · exact @List.sorted_insertionSort Cmd
      (fun a b => goStrLe a.name b.name = true) (fun _ _ => inferInstance)
      ⟨fun a b => goStrLe_total a.name b.name⟩
      ⟨fun _ _ _ hab hbc => goStrLe_trans hab hbc⟩ _

/-- C6, counterexample to the original claim: a child with `LongHelp =
"L"` and empty `Help` is rendered with an empty help column — the claimed
pairing with the child's resolved help text (`"L"`) does not hold. -/
theorem c6_counterexample :
    HelpText c6Node = "\np has no help\n\nCommands:\n  x      \n\n" ∧
    HelpText c6Node ≠ "\np has no help\n\nCommands:\n  x      L\n\n" ∧
    resolvedHelp (.mk "x" [] "" "L" [] .StaticKind [] none) = "L" :=
  ⟨by decide, by decide, rfl⟩

/-- C6, witness: the amended theorem at the node `c6Node`, which has
visible subcommands. -/
theorem c6_witness :
    hasSubcommand c6Node = true ∧
    (HelpText c6Node =
      (if resolvedHelp c6Node = "" then ""
       else "\n" ++ resolvedHelp c6Node ++ "\n") ++
      "\nCommands:\n" ++
      String.join ((Children c6Node).map (fun d =>
        "  " ++ d.name ++
          padSpaces (maxNameLen (Children c6Node) + 2 - d.name.length) ++
          "    " ++ d.help ++ "\n")) ++ "\n" ∧
     List.Sorted (fun a b : Cmd => goStrLe a.name b.name = true)
       (Children c6Node)) :=
  ⟨rfl, c6_fullhelp c6Node rfl⟩

end Ishell
